import Mathlib

/-!
# Verification of the compressor-tree core (`parmys-plugin/core/compressor.cc`)

Shallow embedding of the Wallace / Dadda compressor-tree reducers, the
carry-chain finisher and the adder-cell builders, together with proofs and
refutations of the specification's claims.

## Modelling conventions

* A bit-signal (`npin_t *`) carrying a fixed 0/1 assignment is modelled by its
  Boolean value.  The reducers only move pins and create full/half-adder cells,
  so under a fixed assignment the whole reduction is a pure function on
  `List (List Bool)`.
* A C++ `std::vector` of pins used as a rank is modelled by a `List Bool` in
  *reversed* vector order: the head of the list is `vector.back()`, so
  `pop_back` is `List.tail` and the code's "take the last 2/3 elements" takes
  the first list elements.  The outer `ranks` vector keeps its natural order.
* A `temp` row (`temp[i]`) is modelled in *push* order (first pushed element
  first); the merge step `ranks[i].insert(ranks[i].end(), temp.begin(), temp.end())`
  therefore becomes `temp.reverse ++ rank` in reversed-rank representation.
* The per-stage processing of `implement_compressor_tree_wallace` /
  `_dadda` walks the ranks by increasing index; rank `i` touches only
  `ranks[i]`, `temp[i]` (its own sums, plus the carries pushed by rank `i-1`)
  and `temp[i+1]` (its carries).  The stage is therefore embedded as a
  sequential recursion threading the carry row produced by the previous rank,
  the `last_adder_count` / `last_carry_count` tracker and (for Wallace) the
  `is_first_reducible_rank` flag.
* The Dadda merge loop reads `ranks[i].size()` without the bounds guard that
  the Wallace merge has (`else if (i >= cur_ranks_size) continue;`).  The read
  is out of bounds exactly when the final rank entered the reduction branch
  (creating the carry row `temp[cur_ranks_size]`) but applied no adder.  The
  embedding returns `none` in that case, modelling the undefined behaviour.
* The `while (max_rank_size > 2)` loops are embedded with explicit fuel
  (`maxRankSize ranks` iterations); theorems below show each stage strictly
  decreases the maximum rank height, so this fuel is never exhausted.
* `implement_FA` / `implement_HA` / `implement_AND` are embedded twice: at
  value level (`faSum`, `faCarry`, ...) for the reduction, and structurally
  (`GPin` gate terms) for the cell-builder claims.
-/

namespace Compressor

/-! ## Value-level semantics of the adder cells

`implement_FA` builds `sum = a ^ b ^ c` (3-input XOR gate) and
`carry = ab + ac + bc` (three AND gates feeding a 3-input OR gate);
`implement_HA` builds `sum = a ^ b` and `carry = ab`.  Under a 0/1 assignment
these are the following Boolean functions. -/

def faSum (a b c : Bool) : Bool := xor (xor a b) c

def faCarry (a b c : Bool) : Bool := ((a && b) || (a && c)) || (b && c)

def haSum (a b : Bool) : Bool := xor a b

def haCarry (a b : Bool) : Bool := a && b

/-- Numeric value of a list of bits of equal weight: the number of `true`s. -/
def boolsVal (l : List Bool) : Nat := (l.map Bool.toNat).sum

/-- Numeric value of a rank structure: `Σ_i (Σ_{s ∈ rank i} value s) · 2^i`. -/
def ranksVal : List (List Bool) → Nat
  | [] => 0
  | r :: rs => boolsVal r + 2 * ranksVal rs

/-- The `max_rank_size` scan: largest rank height. -/
def maxRankSize (ranks : List (List Bool)) : Nat :=
  ranks.foldl (fun m r => max m r.length) 0

/-! ## The Wallace reducer (`implement_compressor_tree_wallace`) -/

/-- The full-adder loop (`while (rank_size >= 3)`): repeatedly pop the three
back pins and make an FA.  Returns the leftover rank, the sum pins and carry
pins in push order, and the number of FAs made. -/
def faLoop : List Bool → List Bool × List Bool × List Bool × Nat
  | a :: b :: c :: rest =>
    let (leftover, sums, carries, n) := faLoop rest
    (leftover, faSum a b c :: sums, faCarry a b c :: carries, n + 1)
  | r => (r, [], [], 0)

/-- Per-rank trace of a Wallace stage. -/
structure WInfo where
  /-- rank height at entry to this stage -/
  hIn : Nat
  /-- `last_adder_count` at entry (adders applied to the previous rank) -/
  lastIn : Nat
  /-- `is_first_reducible_rank` at entry -/
  firstIn : Bool
  /-- the rank was skipped (`rank_size < 2`) -/
  skip : Bool
  /-- full adders applied to this rank -/
  fas : Nat
  /-- half adders applied to this rank -/
  has : Nat
  deriving Repr, DecidableEq

/-- Processing of one rank in a Wallace stage (loop body of the
`for (i = 0; i < cur_ranks_size; i++)` loop, lines 91–167).
`carriesIn` is the carry row pushed into `temp[i]` by rank `i-1`.
Returns the merged new rank, the carries pushed into `temp[i+1]`, the trace,
the updated flag and the updated `last_adder_count`. -/
def wallaceRank (target : Nat) (first : Bool) (last : Nat) (carriesIn : List Bool)
    (r : List Bool) : List Bool × List Bool × WInfo × Bool × Nat :=
  if r.length < 2 then
    (carriesIn.reverse ++ r, [], ⟨r.length, last, first, true, 0, 0⟩, first, 0)
  else
    let (leftover, sums, carries, nfa) := faLoop r
    let first1 := if nfa > 0 then false else first
    match leftover with
    | [a, b] =>
      if first1 || decide (nfa + last + 2 > target) then
        ((carriesIn ++ sums ++ [haSum a b]).reverse,
         carries ++ [haCarry a b],
         ⟨r.length, last, first, false, nfa, 1⟩, false, nfa + 1)
      else
        ((carriesIn ++ sums).reverse ++ [a, b], carries,
         ⟨r.length, last, first, false, nfa, 0⟩, first1, nfa)
    | l =>
      ((carriesIn ++ sums).reverse ++ l, carries,
       ⟨r.length, last, first, false, nfa, 0⟩, first1, nfa)

/-- One Wallace stage (reduction sweep plus merge), as a sequential recursion
over the ranks.  A trailing nonempty carry row becomes a new top rank; an empty
trailing carry row is dropped (the guarded `continue` of the Wallace merge). -/
def wallaceStageGo (target : Nat) (first : Bool) (last : Nat) (carries : List Bool) :
    List (List Bool) → List (List Bool) × List WInfo
  | [] => (if carries.isEmpty then [] else [carries.reverse], [])
  | r :: rs =>
    let (nr, cyOut, info, first1, last1) := wallaceRank target first last carries r
    let (rest, infos) := wallaceStageGo target first1 last1 cyOut rs
    (nr :: rest, info :: infos)

/-- One Wallace stage from the initial tracker state
(`is_first_reducible_rank = true`, `last_adder_count = 0`). -/
def wallaceStage (target : Nat) (ranks : List (List Bool)) :
    List (List Bool) × List WInfo :=
  wallaceStageGo target true 0 [] ranks

/-- The per-stage target height `(max / 3) * 2 + (max % 3)`. -/
def wallaceTarget (m : Nat) : Nat := m / 3 * 2 + m % 3

/-- Trace of one Wallace stage. -/
structure WStage where
  startMax : Nat
  target : Nat
  infos : List WInfo
  endMax : Nat
  deriving Repr, DecidableEq

/-- The `while (max_rank_size > 2)` loop of the Wallace reducer, with fuel. -/
def wallaceLoop : Nat → List (List Bool) → List (List Bool) × List WStage
  | 0, ranks => (ranks, [])
  | fuel + 1, ranks =>
    let m := maxRankSize ranks
    if m > 2 then
      let (ranks1, infos) := wallaceStage (wallaceTarget m) ranks
      let (res, stages) := wallaceLoop fuel ranks1
      (res, ⟨m, wallaceTarget m, infos, maxRankSize ranks1⟩ :: stages)
    else (ranks, [])

/-- Reduction phase of `implement_compressor_tree_wallace` (everything before
the call to `ranks_to_adder_chain`), with its stage trace. -/
def wallaceReduce (ranks : List (List Bool)) : List (List Bool) × List WStage :=
  wallaceLoop (maxRankSize ranks) ranks

/-- Total number of adders (full plus half) recorded in a stage trace list. -/
def stagesAddersW (stages : List WStage) : Nat :=
  (stages.map (fun st => (st.infos.map (fun i => i.fas + i.has)).sum)).sum

/-! ## The Dadda reducer (`implement_compressor_tree_dadda`) -/

/-- The d-factor build loop: `d = 2; while (d < m) { push d; d = d * 3 / 2; }`,
embedded with explicit fuel (first argument).  Starting from `d = 2` the value
`d` strictly grows while `d < m`, so the loop pushes fewer than `m` values and
fuel `m` is never exhausted (`dFactorsGo_fuel` below). -/
def dFactorsGo (m : Nat) : Nat → Nat → List Nat
  | 0, _ => []
  | fuel + 1, d => if d < m then d :: dFactorsGo m fuel (d * 3 / 2) else []

/-- All d-factors for initial maximum height `m`. -/
def dFactors (m : Nat) : List Nat := dFactorsGo m m 2

/-- The FA loop of a Dadda rank
(`while (rank_size + last_carry_count + cur_adder_count > d+1 && rank_size >= 3)`).
`cnt` threads `cur_adder_count`; the returned count is the final
`cur_adder_count`. -/
def daddaFA (d lc : Nat) : Nat → List Bool → List Bool × List Bool × List Bool × Nat
  | cnt, a :: b :: c :: rest =>
    if rest.length + 3 + lc + cnt > d + 1 then
      let (leftover, sums, carries, n) := daddaFA d lc (cnt + 1) rest
      (leftover, faSum a b c :: sums, faCarry a b c :: carries, n)
    else (a :: b :: c :: rest, [], [], cnt)
  | cnt, r => (r, [], [], cnt)

/-- Per-rank trace of a Dadda stage. -/
structure DInfo where
  /-- rank height at entry to this stage -/
  hIn : Nat
  /-- `last_carry_count` at entry -/
  lcIn : Nat
  /-- the rank was skipped (`rank_size + last_carry_count <= d`) -/
  skip : Bool
  /-- full adders applied to this rank -/
  fas : Nat
  /-- half adders applied to this rank -/
  has : Nat
  deriving Repr, DecidableEq

/-- Processing of one rank in a Dadda stage (loop body, lines 253–321).
Returns the merged new rank, the carries pushed into `temp[i+1]`, the trace,
the updated `last_carry_count` and whether the reduction branch was entered
(which is what creates the `temp[i+1]` row).  Note the skip branch is a bare
`continue`: it does *not* update `last_carry_count`. -/
def daddaRank (d lc : Nat) (carriesIn : List Bool) (r : List Bool) :
    List Bool × List Bool × DInfo × Nat × Bool :=
  if r.length + lc ≤ d then
    (carriesIn.reverse ++ r, [], ⟨r.length, lc, true, 0, 0⟩, lc, false)
  else
    let (leftover, sums, carries, nfa) := daddaFA d lc 0 r
    match leftover with
    | a :: b :: rest =>
      if rest.length + 2 + lc + nfa = d + 1 then
        ((carriesIn ++ sums ++ [haSum a b]).reverse ++ rest,
         carries ++ [haCarry a b],
         ⟨r.length, lc, false, nfa, 1⟩, nfa + 1, true)
      else
        ((carriesIn ++ sums).reverse ++ (a :: b :: rest), carries,
         ⟨r.length, lc, false, nfa, 0⟩, nfa, true)
    | l =>
      ((carriesIn ++ sums).reverse ++ l, carries,
       ⟨r.length, lc, false, nfa, 0⟩, nfa, true)

/-- One Dadda stage.  `rowMade` records whether the previously processed rank
entered the reduction branch, i.e. whether the carry row for the current index
exists in `temp`.  After the last rank, if that row exists but is empty, the
merge loop reads `ranks[cur_ranks_size]` — out of bounds (`none`). -/
def daddaStageGo (d : Nat) (lc : Nat) (carries : List Bool) (rowMade : Bool) :
    List (List Bool) → Option (List (List Bool) × List DInfo)
  | [] =>
    if rowMade && carries.isEmpty then none
    else some (if carries.isEmpty then [] else [carries.reverse], [])
  | r :: rs =>
    let (nr, cyOut, info, lc1, entered) := daddaRank d lc carries r
    match daddaStageGo d lc1 cyOut entered rs with
    | none => none
    | some (rest, infos) => some (nr :: rest, info :: infos)

/-- One Dadda stage from the initial state (`last_carry_count = 0`). -/
def daddaStage (d : Nat) (ranks : List (List Bool)) :
    Option (List (List Bool) × List DInfo) :=
  daddaStageGo d 0 [] false ranks

/-- The d advance loop at the end of a Dadda stage
(`while (!d_factors.empty()) { d = d_factors.back(); d_factors.pop_back(); if (d < max_rank_size) break; }`).
The factor list is kept in reversed (back-first) order. -/
def advanceD (maxr : Nat) : List Nat → Nat → List Nat × Nat
  | [], d => ([], d)
  | f :: fs, _ => if f < maxr then (fs, f) else advanceD maxr fs f

/-- Trace of one Dadda stage. -/
structure DStage where
  d : Nat
  startMax : Nat
  infos : List DInfo
  endMax : Nat
  deriving Repr, DecidableEq

/-- The `while (max_rank_size > 2)` loop of the Dadda reducer, with fuel.
`fsRev` is the remaining d-factor list in reversed (back-first) order. -/
def daddaLoop : Nat → List (List Bool) → Nat → List Nat →
    Option (List (List Bool) × List DStage)
  | 0, ranks, _, _ => some (ranks, [])
  | fuel + 1, ranks, d, fsRev =>
    let m := maxRankSize ranks
    if m > 2 then
      match daddaStage d ranks with
      | none => none
      | some (ranks1, infos) =>
        let m1 := maxRankSize ranks1
        let (fs1, d1) := advanceD m1 fsRev d
        match daddaLoop fuel ranks1 d1 fs1 with
        | none => none
        | some (res, stages) => some (res, ⟨d, m, infos, m1⟩ :: stages)
    else some (ranks, [])

/-- Reduction phase of `implement_compressor_tree_dadda`: build the d-factors,
roll `d` back by one (`d = d_factors.back(); d_factors.pop_back();` when
nonempty; `d` stays at its post-loop value `2` when empty), then loop. -/
def daddaReduce (ranks : List (List Bool)) :
    Option (List (List Bool) × List DStage) :=
  let m := maxRankSize ranks
  match (dFactors m).reverse with
  | [] => daddaLoop m ranks 2 []
  | f :: rest => daddaLoop m ranks f rest

/-- Total number of adders (full plus half) recorded in a Dadda trace. -/
def stagesAddersD (stages : List DStage) : Nat :=
  (stages.map (fun st => (st.infos.map (fun i => i.fas + i.has)).sum)).sum

/-! ## The carry-chain finisher (`ranks_to_adder_chain`) -/

/-- An output pin of the finisher. -/
inductive OutPin where
  /-- a pin passed through directly (its Boolean value) -/
  | direct : Bool → OutPin
  /-- the netlist's constant-zero pin (`get_zero_pin`) -/
  | zero : OutPin
  /-- output pin `k` of the synthesized carry-propagate adder node -/
  | addOut : Nat → OutPin
  deriving Repr, DecidableEq

/-- Result of `ranks_to_adder_chain`: the output signal list, the adder node
(if synthesized) as `(start rank index, input width)`, and the input-pin
connections made to the adder.  A connection `(idx, b)` on the first operand
is `add_input_pin_to_node(add_node, ·, idx)`; on the second operand it is
index `adder_input_size + idx` in the C++ code.  A rank with a single pin gets
the constant-zero pin as its second operand, recorded as `(idx, false)`. -/
structure Finisher where
  ret : List OutPin
  adder : Option (Nat × Nat)
  connsA : List (Nat × Bool)
  connsB : List (Nat × Bool)
  deriving Repr, DecidableEq

/-- Body of the finisher's rank loop (lines 371–426).  `cur` is
`cur_ranks_size`, `i` the current rank index, `adder` the adder state
(`makingAdderChain`, `adder_start_i`, `adder_input_size`). -/
def finGo (cur : Nat) : Nat → Option (Nat × Nat) → List (List Bool) → Finisher
  | _, adder, [] => ⟨[], adder, [], []⟩
  | i, adder, r :: rs =>
    let adder1 : Option (Nat × Nat) :=
      match adder with
      | none => if 1 < r.length then some (i, cur - i) else none
      | some s => some s
    let rest := finGo cur (i + 1) adder1 rs
    match r, adder1 with
    | [], _ =>
      -- no pins to insert at this rank; attach the constant-zero pin
      ⟨OutPin.zero :: rest.ret, rest.adder, rest.connsA, rest.connsB⟩
    | x :: xs, some (start, _) =>
      -- feed the adder at position `i - start`; second pin is the next popped
      -- pin if any, else the constant-zero pin
      let idx := i - start
      let second : Bool := match xs with | y :: _ => y | [] => false
      ⟨OutPin.addOut idx :: rest.ret, rest.adder,
       (idx, x) :: rest.connsA, (idx, second) :: rest.connsB⟩
    | x :: _, none =>
      -- single pin before the adder chain starts: pass it through
      ⟨OutPin.direct x :: rest.ret, rest.adder, rest.connsA, rest.connsB⟩

/-- `ranks_to_adder_chain`: run the rank loop, then append the adder's
carry-out pin (`make_output_pin(add_node, adder_input_size)`) when an adder
was synthesized. -/
def ranksToAdderChain (ranks : List (List Bool)) : Finisher :=
  let f := finGo ranks.length 0 none ranks
  match f.adder with
  | some (_, w) => ⟨f.ret ++ [OutPin.addOut w], f.adder, f.connsA, f.connsB⟩
  | none => f

/-- Value of the connection list of one adder operand: `Σ b · 2^idx`. -/
def connsVal : List (Nat × Bool) → Nat
  | [] => 0
  | (idx, b) :: rest => b.toNat * 2 ^ idx + connsVal rest

/-- Modelled from the spec: the n-bit carry-propagate adder node created by
`make_2port_gate(ADD, w, w, w+1, ...)` is implemented outside this repository
slice (`adder.h`); per §4.4/§6 of the spec it adds its two operand vectors, so
its output pin `k` carries bit `k` of the sum of the connected operand values
(unconnected input positions contribute nothing, i.e. read as 0). -/
def adderSum (f : Finisher) : Nat := connsVal f.connsA + connsVal f.connsB

/-- Value of one finisher output pin, given the adder's sum `S`. -/
def outPinVal (S : Nat) : OutPin → Bool
  | .direct b => b
  | .zero => false
  | .addOut k => S.testBit k

/-- Weighted value of the finisher's output sequence: `Σ output[i] · 2^i`. -/
def pinsVal (S : Nat) : List OutPin → Nat
  | [] => 0
  | p :: ps => (outPinVal S p).toNat + 2 * pinsVal S ps

/-- Decoded numeric value of the finisher's output. -/
def decode (f : Finisher) : Nat := pinsVal (adderSum f) f.ret

/-! ## Top-level entry points -/

/-- The Wallace compressor tree: reduce, then run the finisher. -/
def implement_compressor_tree_wallace (ranks : List (List Bool)) : Finisher :=
  ranksToAdderChain (wallaceReduce ranks).1

/-- The Dadda compressor tree (`none` models the out-of-bounds read in the
unguarded Dadda merge). -/
def implement_compressor_tree_dadda (ranks : List (List Bool)) : Option Finisher :=
  (daddaReduce ranks).map (fun p => ranksToAdderChain p.1)

/-- The strategy tag (`compressor_tree_type_e`). -/
inductive compressor_tree_type_e where
  | WALLACE : compressor_tree_type_e
  | DADDA : compressor_tree_type_e
  deriving Repr, DecidableEq

/-- The dispatcher (`implement_compressor_tree`).  The C++ default branch is a
fatal `log_error`; with a closed tag type it is unreachable. -/
def implement_compressor_tree (t : compressor_tree_type_e)
    (ranks : List (List Bool)) : Option Finisher :=
  match t with
  | .WALLACE => some (implement_compressor_tree_wallace ranks)
  | .DADDA => implement_compressor_tree_dadda ranks

/-! ## Gate-level model of the cell builders -/

/-- A gate-level pin: either a caller input or the (freshly allocated) output
pin of a gate node created by the cell builders. -/
inductive GPin where
  | inp : Nat → GPin
  | andG : GPin → GPin → GPin
  | xor2 : GPin → GPin → GPin
  | xor3 : GPin → GPin → GPin → GPin
  | or3 : GPin → GPin → GPin → GPin
  deriving Repr, DecidableEq

/-- `implement_AND`: a fresh `LOGICAL_AND` node fed by (copies of) `a`, `b`. -/
def implement_AND (a b : GPin) : GPin := GPin.andG a b

/-- `implement_FA`: sum is a fresh 3-input `LOGICAL_XOR` node; carry is a
fresh 3-input `LOGICAL_OR` node fed by three `implement_AND` gates on the
pairs `(a,b)`, `(a,c)`, `(b,c)`. -/
def implement_FA (a b c : GPin) : GPin × GPin :=
  (GPin.xor3 a b c,
   GPin.or3 (implement_AND a b) (implement_AND a c) (implement_AND b c))

/-- `implement_HA`: sum is a fresh 2-input `LOGICAL_XOR` node; carry is
`implement_AND a b`. -/
def implement_HA (a b : GPin) : GPin × GPin :=
  (GPin.xor2 a b, implement_AND a b)

/-- Evaluation of a gate-level pin under an assignment of the inputs. -/
def evalG (env : Nat → Bool) : GPin → Bool
  | .inp n => env n
  | .andG a b => evalG env a && evalG env b
  | .xor2 a b => xor (evalG env a) (evalG env b)
  | .xor3 a b c => xor (xor (evalG env a) (evalG env b)) (evalG env c)
  | .or3 a b c => ((evalG env a) || (evalG env b)) || (evalG env c)

/-- Size of a gate term (used to show gate outputs are fresh pins, distinct
from every input pin they are fed by). -/
def gsize : GPin → Nat
  | .inp _ => 1
  | .andG a b => gsize a + gsize b + 1
  | .xor2 a b => gsize a + gsize b + 1
  | .xor3 a b c => gsize a + gsize b + gsize c + 1
  | .or3 a b c => gsize a + gsize b + gsize c + 1

/-! ## Stage-count bound -/

/-- Worst-case number of Wallace stages from maximum height `m` (first
argument is fuel): each stage ends with maximum height at most
`wallaceTarget m`, so `wallaceBoundAux m m` stages always suffice. -/
def wallaceBoundAux : Nat → Nat → Nat
  | 0, _ => 0
  | fuel + 1, m => if m ≤ 2 then 0 else 1 + wallaceBoundAux fuel (wallaceTarget m)

/-! # Theorems -/

/-! ## Basic value lemmas -/

theorem fa_val (a b c : Bool) :
    (faSum a b c).toNat + 2 * (faCarry a b c).toNat = a.toNat + b.toNat + c.toNat := by
  cases a <;> cases b <;> cases c <;> rfl

theorem ha_val (a b : Bool) :
    (haSum a b).toNat + 2 * (haCarry a b).toNat = a.toNat + b.toNat := by
  cases a <;> cases b <;> rfl

theorem boolsVal_nil : boolsVal [] = 0 := rfl

theorem boolsVal_cons (b : Bool) (l : List Bool) :
    boolsVal (b :: l) = b.toNat + boolsVal l := by
  simp [boolsVal]

theorem boolsVal_append (l1 l2 : List Bool) :
    boolsVal (l1 ++ l2) = boolsVal l1 + boolsVal l2 := by
  simp [boolsVal]

theorem boolsVal_reverse (l : List Bool) : boolsVal l.reverse = boolsVal l := by
  simp [boolsVal]
  exact List.sum_reverse _

theorem ranksVal_cons (r : List Bool) (rs : List (List Bool)) :
    ranksVal (r :: rs) = boolsVal r + 2 * ranksVal rs := rfl

theorem foldl_max_shift (ranks : List (List Bool)) :
    ∀ acc : Nat, ranks.foldl (fun m r => max m r.length) acc
      = max acc (ranks.foldl (fun m r => max m r.length) 0) := by
  induction ranks with
  | nil => intro acc; simp
  | cons a as ih =>
    intro acc
    rw [List.foldl_cons, ih, List.foldl_cons, ih (max 0 a.length)]
    omega

theorem maxRankSize_cons (a : List Bool) (as : List (List Bool)) :
    maxRankSize (a :: as) = max a.length (maxRankSize as) := by
  unfold maxRankSize
  rw [List.foldl_cons, foldl_max_shift]
  omega

theorem maxRankSize_iff (ranks : List (List Bool)) (b : Nat) :
    maxRankSize ranks ≤ b ↔ ∀ r ∈ ranks, r.length ≤ b := by
  induction ranks with
  | nil => simp [maxRankSize]
  | cons a as ih =>
    rw [maxRankSize_cons]
    simp only [List.mem_cons]
    constructor
    · intro h r hr
      rcases hr with rfl | hr
      · omega
      · exact Nat.le_trans (ih.1 (by omega) r hr) (Nat.le_refl _)
    · intro h
      have h1 := h a (Or.inl rfl)
      have h2 := ih.2 fun r hr => h r (Or.inr hr)
      omega

theorem maxRankSize_le (ranks : List (List Bool)) {r : List Bool} (h : r ∈ ranks) :
    r.length ≤ maxRankSize ranks :=
  (maxRankSize_iff ranks (maxRankSize ranks)).1 (Nat.le_refl _) r h

/-! ## The FA loop -/

theorem faLoop_spec : ∀ (r l s cy : List Bool) (n : Nat), faLoop r = (l, s, cy, n) →
    l.length ≤ 2 ∧ r.length = 3 * n + l.length ∧ s.length = n ∧ cy.length = n ∧
    boolsVal l + boolsVal s + 2 * boolsVal cy = boolsVal r
  | [], l, s, cy, n, heq => by
    simp only [faLoop, Prod.mk.injEq] at heq
    obtain ⟨rfl, rfl, rfl, rfl⟩ := heq
    simp [boolsVal]
  | [a], l, s, cy, n, heq => by
    simp only [faLoop, Prod.mk.injEq] at heq
    obtain ⟨rfl, rfl, rfl, rfl⟩ := heq
    simp [boolsVal]
  | [a, b], l, s, cy, n, heq => by
    simp only [faLoop, Prod.mk.injEq] at heq
    obtain ⟨rfl, rfl, rfl, rfl⟩ := heq
    simp [boolsVal]
  | a :: b :: c :: rest, l, s, cy, n, heq => by
    rcases hfr : faLoop rest with ⟨l0, s0, cy0, n0⟩
    have ih := faLoop_spec rest l0 s0 cy0 n0 hfr
    simp only [faLoop, hfr, Prod.mk.injEq] at heq
    obtain ⟨rfl, rfl, rfl, rfl⟩ := heq
    obtain ⟨ih1, ih2, ih3, ih4, ih5⟩ := ih
    have hv := fa_val a b c
    refine ⟨ih1, by simp; omega, by simp [ih3], by simp [ih4], ?_⟩
    simp only [boolsVal_cons]
    omega

/-! ## The Dadda FA loop -/

theorem daddaFA_spec : ∀ (d lc cnt : Nat) (r l s cy : List Bool) (n : Nat),
    daddaFA d lc cnt r = (l, s, cy, n) →
    cnt ≤ n ∧ r.length + 3 * cnt = 3 * n + l.length ∧
    s.length = n - cnt ∧ cy.length = n - cnt ∧
    (l.length + lc + n ≤ d + 1 ∨ l.length < 3) ∧
    boolsVal l + boolsVal s + 2 * boolsVal cy = boolsVal r
  | d, lc, cnt, [], l, s, cy, n, heq => by
    simp only [daddaFA, Prod.mk.injEq] at heq
    obtain ⟨rfl, rfl, rfl, rfl⟩ := heq
    simp [boolsVal]
  | d, lc, cnt, [a], l, s, cy, n, heq => by
    simp only [daddaFA, Prod.mk.injEq] at heq
    obtain ⟨rfl, rfl, rfl, rfl⟩ := heq
    refine ⟨Nat.le_refl _, ?_, ?_, ?_, Or.inr ?_, ?_⟩ <;> simp [boolsVal] <;> omega
  | d, lc, cnt, [a, b], l, s, cy, n, heq => by
    simp only [daddaFA, Prod.mk.injEq] at heq
    obtain ⟨rfl, rfl, rfl, rfl⟩ := heq
    refine ⟨Nat.le_refl _, ?_, ?_, ?_, Or.inr ?_, ?_⟩ <;> simp [boolsVal] <;> omega
  | d, lc, cnt, a :: b :: c :: rest, l, s, cy, n, heq => by
    by_cases hc : rest.length + 3 + lc + cnt > d + 1
    · rcases hfr : daddaFA d lc (cnt + 1) rest with ⟨l0, s0, cy0, n0⟩
      have ih := daddaFA_spec d lc (cnt + 1) rest l0 s0 cy0 n0 hfr
      simp only [daddaFA, hfr, if_pos hc, Prod.mk.injEq] at heq
      obtain ⟨rfl, rfl, rfl, rfl⟩ := heq
      obtain ⟨ih1, ih2, ih3, ih4, ih5, ih6⟩ := ih
      have hv := fa_val a b c
      refine ⟨by omega, by simp; omega, by simp; omega, by simp; omega, ?_, ?_⟩
      · rcases ih5 with h | h
        · exact Or.inl (by omega)
        · exact Or.inr h
      · simp only [boolsVal_cons]
        omega
    · simp only [daddaFA, if_neg hc, Prod.mk.injEq] at heq
      obtain ⟨rfl, rfl, rfl, rfl⟩ := heq
      refine ⟨Nat.le_refl _, ?_, ?_, ?_, Or.inl ?_, ?_⟩ <;> simp [boolsVal] <;> omega


/-! ## The Wallace rank step -/

theorem wallaceRank_spec (target : Nat) (first : Bool) (last : Nat) (cin r : List Bool)
    (nr cy : List Bool) (info : WInfo) (first1 : Bool) (last1 : Nat)
    (heq : wallaceRank target first last cin r = (nr, cy, info, first1, last1)) :
    info.hIn = r.length ∧ info.lastIn = last ∧ info.firstIn = first ∧
    info.skip = decide (r.length < 2) ∧
    boolsVal nr + 2 * boolsVal cy = boolsVal cin + boolsVal r ∧
    cy.length = info.fas + info.has ∧
    last1 = info.fas + info.has ∧
    first1 = (first && decide (info.fas + info.has = 0)) ∧
    (info.skip = true → info.fas = 0 ∧ info.has = 0 ∧ r.length < 2 ∧
      nr.length = cin.length + r.length) ∧
    (info.skip = false →
      info.fas = r.length / 3 ∧ (info.has = 0 ∨ info.has = 1) ∧
      nr.length + 2 * info.has = cin.length + info.fas + info.has + r.length % 3 ∧
      (info.has = 1 ↔ r.length % 3 = 2 ∧
        ((first = true ∧ info.fas = 0) ∨ info.fas + last + 2 > target))) := by
  by_cases hlt : r.length < 2
  · simp only [wallaceRank, if_pos hlt, Prod.mk.injEq] at heq
    obtain ⟨rfl, rfl, rfl, rfl, rfl⟩ := heq
    refine ⟨rfl, rfl, rfl, by simp [hlt], ?_, rfl, rfl, by simp, ?_, by simp⟩
    · rw [boolsVal_append, boolsVal_reverse, boolsVal_nil]; omega
    · intro _
      refine ⟨rfl, rfl, hlt, ?_⟩
      simp only [List.length_append, List.length_reverse]
  · rcases hfl : faLoop r with ⟨l, s, cys, nfa⟩
    obtain ⟨hl2, hlen, hs, hcy, hval⟩ := faLoop_spec r l s cys nfa hfl
    match l, hl2 with
    | [], _ =>
      simp only [List.length_nil, boolsVal_nil] at hlen hval
      simp only [wallaceRank, if_neg hlt, hfl, Prod.mk.injEq] at heq
      obtain ⟨rfl, rfl, rfl, rfl, rfl⟩ := heq
      refine ⟨rfl, rfl, rfl, by simp [hlt], ?_, ?_, ?_, ?_, by simp, ?_⟩
      · rw [List.append_nil, boolsVal_reverse, boolsVal_append]; omega
      · show cys.length = nfa + 0; omega
      · show nfa = nfa + 0; omega
      · show _ = (first && decide (nfa + 0 = 0))
        by_cases h0 : nfa = 0
        · simp [h0]
        · have := Nat.pos_of_ne_zero h0; simp [h0, this]
      · intro _
        refine ⟨show nfa = r.length / 3 by omega, Or.inl rfl, ?_, ?_⟩
        · show _ + 2 * 0 = cin.length + nfa + 0 + r.length % 3
          simp only [List.length_append, List.length_reverse, List.length_nil, hs]
          omega
        · show (0 = 1 ↔ _)
          exact ⟨fun h => by omega, fun h => absurd h.1 (by omega)⟩
    | [x], _ =>
      simp only [List.length_cons, List.length_nil, boolsVal_cons, boolsVal_nil] at hlen hval
      simp only [wallaceRank, if_neg hlt, hfl, Prod.mk.injEq] at heq
      obtain ⟨rfl, rfl, rfl, rfl, rfl⟩ := heq
      refine ⟨rfl, rfl, rfl, by simp [hlt], ?_, ?_, ?_, ?_, by simp, ?_⟩
      · rw [boolsVal_append, boolsVal_reverse, boolsVal_append]
        simp only [boolsVal_cons, boolsVal_nil]
        omega
      · show cys.length = nfa + 0; omega
      · show nfa = nfa + 0; omega
      · show _ = (first && decide (nfa + 0 = 0))
        by_cases h0 : nfa = 0
        · simp [h0]
        · have := Nat.pos_of_ne_zero h0; simp [h0, this]
      · intro _
        refine ⟨show nfa = r.length / 3 by omega, Or.inl rfl, ?_, ?_⟩
        · show _ + 2 * 0 = cin.length + nfa + 0 + r.length % 3
          simp only [List.length_append, List.length_reverse, List.length_cons,
            List.length_nil, hs]
          omega
        · show (0 = 1 ↔ _)
          exact ⟨fun h => by omega, fun h => absurd h.1 (by omega)⟩
    | [x, y], _ =>
      simp only [List.length_cons, List.length_nil, boolsVal_cons, boolsVal_nil] at hlen hval
      have hxy := ha_val x y
      by_cases hha : ((if nfa > 0 then false else first) || decide (nfa + last + 2 > target)) = true
      · simp only [wallaceRank, if_neg hlt, hfl] at heq
        rw [if_pos hha] at heq
        simp only [Prod.mk.injEq] at heq
        obtain ⟨rfl, rfl, rfl, rfl, rfl⟩ := heq
        refine ⟨rfl, rfl, rfl, by simp [hlt], ?_, ?_, ?_, by simp, by simp, ?_⟩
        · rw [boolsVal_reverse, boolsVal_append, boolsVal_append, boolsVal_append]
          simp only [boolsVal_cons, boolsVal_nil]
          omega
        · show (cys ++ [haCarry x y]).length = nfa + 1
          simp only [List.length_append, List.length_cons, List.length_nil, hcy]
        · show nfa + 1 = nfa + 1; rfl
        · intro _
          refine ⟨show nfa = r.length / 3 by omega, Or.inr rfl, ?_, ?_⟩
          · show _ + 2 * 1 = cin.length + nfa + 1 + r.length % 3
            simp only [List.length_reverse, List.length_append, List.length_cons,
              List.length_nil, hs]
            omega
          · show (1 = 1 ↔ _)
            simp only [true_iff]
            refine ⟨by omega, ?_⟩
            rcases Bool.or_eq_true_iff.1 hha with h | h
            · by_cases hz : nfa > 0
              · rw [if_pos hz] at h; exact absurd h (by simp)
              · rw [if_neg hz] at h; exact Or.inl ⟨h, by omega⟩
            · exact Or.inr (by simpa using h)
      · simp only [wallaceRank, if_neg hlt, hfl] at heq
        rw [if_neg hha] at heq
        simp only [Prod.mk.injEq] at heq
        obtain ⟨rfl, rfl, rfl, rfl, rfl⟩ := heq
        have hcond : (nfa = 0 → first = false) ∧ ¬(nfa + last + 2 > target) := by
          constructor
          · intro h0
            by_contra hf
            have hft : first = true := by revert hf; cases first <;> simp
            apply hha
            rw [if_neg (by omega)]
            simp [hft]
          · intro hgt
            exact hha (by simp [hgt])
        refine ⟨rfl, rfl, rfl, by simp [hlt], ?_, ?_, ?_, ?_, by simp, ?_⟩
        · rw [boolsVal_append, boolsVal_reverse, boolsVal_append]
          simp only [boolsVal_cons, boolsVal_nil]
          omega
        · show cys.length = nfa + 0; omega
        · show nfa = nfa + 0; omega
        · show _ = (first && decide (nfa + 0 = 0))
          by_cases h0 : nfa = 0
          · have := hcond.1 h0
            simp [h0, this]
          · have := Nat.pos_of_ne_zero h0; simp [h0, this]
        · intro _
          refine ⟨show nfa = r.length / 3 by omega, Or.inl rfl, ?_, ?_⟩
          · show _ + 2 * 0 = cin.length + nfa + 0 + r.length % 3
            simp only [List.length_append, List.length_reverse, List.length_cons,
              List.length_nil, hs]
            omega
          · show (0 = 1 ↔ _)
            refine ⟨fun h => by omega, ?_⟩
            rintro ⟨h2r, h | h⟩
            · exact absurd (hcond.1 h.2) (by simp [h.1])
            · exact absurd h hcond.2
    | x :: y :: z :: tl, h2 => simp at h2

/-! ## Wallace stage lemmas -/

theorem wallaceStageGo_val : ∀ (ranks : List (List Bool)) (target : Nat) (first : Bool)
    (last : Nat) (cin : List Bool),
    ranksVal (wallaceStageGo target first last cin ranks).1 = boolsVal cin + ranksVal ranks
  | [], target, first, last, cin => by
    by_cases hc : cin.isEmpty
    · simp only [wallaceStageGo, if_pos hc]
      have : cin = [] := List.isEmpty_iff.1 hc
      simp [this, ranksVal, boolsVal]
    · simp only [wallaceStageGo, if_neg hc]
      simp [ranksVal, boolsVal_reverse]
  | r :: rs, target, first, last, cin => by
    rcases hr : wallaceRank target first last cin r with ⟨nr, cy, info, f1, l1⟩
    have hspec := wallaceRank_spec target first last cin r nr cy info f1 l1 hr
    rcases hgo : wallaceStageGo target f1 l1 cy rs with ⟨rest, infos⟩
    have ih := wallaceStageGo_val rs target f1 l1 cy
    rw [hgo] at ih
    simp only [wallaceStageGo, hr, hgo, ranksVal_cons]
    have hv := hspec.2.2.2.2.1
    simp only at ih
    omega

theorem wallaceStageGo_bound : ∀ (ranks : List (List Bool)) (m target : Nat) (first : Bool)
    (last : Nat) (cin : List Bool),
    target = wallaceTarget m → 3 ≤ m →
    (∀ r ∈ ranks, r.length ≤ m) →
    cin.length = last → last ≤ m / 3 + m % 3 / 2 →
    (first = true → last = 0) →
    ∀ nr ∈ (wallaceStageGo target first last cin ranks).1, nr.length ≤ wallaceTarget m
  | [], m, target, first, last, cin => by
    intro htarget hm _ hcl hlast _ nr hnr
    by_cases hc : cin.isEmpty
    · simp only [wallaceStageGo, if_pos hc] at hnr
      cases hnr
    · simp only [wallaceStageGo, if_neg hc] at hnr
      rw [List.mem_singleton] at hnr
      subst hnr
      simp only [List.length_reverse]
      unfold wallaceTarget
      omega
  | r :: rs, m, target, first, last, cin => by
    intro htarget hm hranks hcl hlast hfirst nr hnr
    rcases hr : wallaceRank target first last cin r with ⟨nr0, cy, info, f1, l1⟩
    have hspec := wallaceRank_spec target first last cin r nr0 cy info f1 l1 hr
    rcases hgo : wallaceStageGo target f1 l1 cy rs with ⟨rest, infos⟩
    simp only [wallaceStageGo, hr, hgo] at hnr
    obtain ⟨hh, hli, hfi, hsk, hv, hcyl, hl1, hf1, hskipc, hredc⟩ := hspec
    have hrm : r.length ≤ m := hranks r (List.mem_cons_self r rs)
    -- the adder count of this rank is bounded by m / 3 + m % 3 / 2
    have hcnt : info.fas + info.has ≤ m / 3 + m % 3 / 2 := by
      by_cases hskip : info.skip
      · obtain ⟨hfz, hhz, _, _⟩ := hskipc hskip
        omega
      · have hskipf : info.skip = false := by revert hskip; cases info.skip <;> simp
        obtain ⟨hfa, hhas, _, hiff⟩ := hredc hskipf
        rcases hhas with h0 | h1
        · omega
        · have := (hiff.1 h1).1
          omega
    rw [List.mem_cons] at hnr
    rcases hnr with rfl | hmem
    · -- the head rank obeys the target bound
      by_cases hskip : info.skip
      · obtain ⟨hfz, hhz, hrl, hlen⟩ := hskipc hskip
        unfold wallaceTarget
        omega
      · have hskipf : info.skip = false := by revert hskip; cases info.skip <;> simp
        obtain ⟨hfa, hhas, hlen, hiff⟩ := hredc hskipf
        rcases hhas with h0 | h1
        · -- no HA: either remainder < 2, or the tie-break guaranteed the bound
          by_cases hr2 : r.length % 3 = 2
          · have hnb : ¬(r.length % 3 = 2 ∧
                ((first = true ∧ info.fas = 0) ∨ info.fas + last + 2 > target)) := by
              intro hcontra
              have := hiff.2 hcontra
              omega
            have hle : info.fas + last + 2 ≤ target := by
              by_contra hgt
              exact hnb ⟨hr2, Or.inr (by omega)⟩
            subst htarget
            omega
          · subst htarget
            unfold wallaceTarget at *
            omega
        · -- HA applied
          have hif := hiff.1 h1
          rcases hif.2 with ⟨hft, hfz⟩ | hgt
          · have := hfirst hft
            subst htarget
            unfold wallaceTarget at *
            omega
          · subst htarget
            unfold wallaceTarget at *
            omega
    · -- tail ranks: apply the induction hypothesis
      have hf1z : f1 = true → l1 = 0 := by
        intro hf
        rw [hf1] at hf
        simp only [Bool.and_eq_true, decide_eq_true_eq] at hf
        omega
      have ih := wallaceStageGo_bound rs m target f1 l1 cy
        htarget hm (fun x hx => hranks x (List.mem_cons_of_mem r hx))
        (by omega) (by omega) hf1z
      rw [hgo] at ih
      exact ih nr hmem

/-! ## Wallace loop lemmas -/

theorem wallaceStage_val (target : Nat) (ranks : List (List Bool)) :
    ranksVal (wallaceStage target ranks).1 = ranksVal ranks := by
  unfold wallaceStage
  rw [wallaceStageGo_val]
  simp [boolsVal]

theorem wallaceStage_max (m : Nat) (ranks : List (List Bool)) (hm : 3 ≤ m)
    (hranks : maxRankSize ranks ≤ m) :
    maxRankSize (wallaceStage (wallaceTarget m) ranks).1 ≤ wallaceTarget m := by
  rw [maxRankSize_iff]
  intro r hr
  exact wallaceStageGo_bound ranks m (wallaceTarget m) true 0 [] rfl hm
    ((maxRankSize_iff ranks m).1 hranks) rfl (by omega) (fun _ => rfl) r hr

theorem wallaceTarget_lt (m : Nat) (hm : 3 ≤ m) : wallaceTarget m < m := by
  unfold wallaceTarget; omega

theorem wallaceLoop_val : ∀ (fuel : Nat) (ranks : List (List Bool)),
    ranksVal (wallaceLoop fuel ranks).1 = ranksVal ranks
  | 0, ranks => rfl
  | fuel + 1, ranks => by
    simp only [wallaceLoop]
    by_cases hm : maxRankSize ranks > 2
    · rw [if_pos hm]
      rcases hst : wallaceStage (wallaceTarget (maxRankSize ranks)) ranks with ⟨ranks1, infos⟩
      have hv := wallaceStage_val (wallaceTarget (maxRankSize ranks)) ranks
      rw [hst] at hv
      rcases hlp : wallaceLoop fuel ranks1 with ⟨res, stages⟩
      have ih := wallaceLoop_val fuel ranks1
      rw [hlp] at ih
      simp only at hv ih
      simp only [ih, hv]
    · rw [if_neg hm]

theorem wallaceLoop_max_le : ∀ (fuel : Nat) (ranks : List (List Bool)),
    maxRankSize ranks ≤ fuel + 2 →
    maxRankSize (wallaceLoop fuel ranks).1 ≤ 2
  | 0, ranks, h => h
  | fuel + 1, ranks, h => by
    simp only [wallaceLoop]
    by_cases hm : maxRankSize ranks > 2
    · rw [if_pos hm]
      rcases hst : wallaceStage (wallaceTarget (maxRankSize ranks)) ranks with ⟨ranks1, infos⟩
      have hmax := wallaceStage_max (maxRankSize ranks) ranks (by omega) (Nat.le_refl _)
      rw [hst] at hmax
      have hlt := wallaceTarget_lt (maxRankSize ranks) (by omega)
      rcases hlp : wallaceLoop fuel ranks1 with ⟨res, stages⟩
      have ih := wallaceLoop_max_le fuel ranks1 (by simp only at hmax; omega)
      rw [hlp] at ih
      exact ih
    · rw [if_neg hm]
      show maxRankSize ranks ≤ 2
      omega

/-- Each recorded Wallace stage was entered with `startMax > 2`, targeted
`wallaceTarget startMax`, and ended with maximum height at most the target
(hence strictly below `startMax`). -/
theorem wallaceLoop_stages : ∀ (fuel : Nat) (ranks : List (List Bool)),
    ∀ st ∈ (wallaceLoop fuel ranks).2,
      2 < st.startMax ∧ st.target = wallaceTarget st.startMax ∧
      st.endMax ≤ wallaceTarget st.startMax ∧ st.endMax < st.startMax
  | 0, ranks => by intro st hst; cases hst
  | fuel + 1, ranks => by
    intro st hst
    simp only [wallaceLoop] at hst
    by_cases hm : maxRankSize ranks > 2
    · rw [if_pos hm] at hst
      rcases hst2 : wallaceStage (wallaceTarget (maxRankSize ranks)) ranks with ⟨ranks1, infos⟩
      rw [hst2] at hst
      rcases hlp : wallaceLoop fuel ranks1 with ⟨res, stages⟩
      rw [hlp] at hst
      simp only [List.mem_cons] at hst
      rcases hst with rfl | hmem
      · have hmax := wallaceStage_max (maxRankSize ranks) ranks (by omega) (Nat.le_refl _)
        rw [hst2] at hmax
        have hlt := wallaceTarget_lt (maxRankSize ranks) (by omega)
        simp only at hmax
        exact ⟨hm, rfl, hmax, show maxRankSize ranks1 < maxRankSize ranks by omega⟩
      · have ih := wallaceLoop_stages fuel ranks1 st
        rw [hlp] at ih
        exact ih hmem
    · rw [if_neg hm] at hst
      cases hst

theorem wallaceTarget_mono {m m' : Nat} (h : m ≤ m') :
    wallaceTarget m ≤ wallaceTarget m' := by
  unfold wallaceTarget; omega

theorem wallaceBoundAux_mono : ∀ (fuel m m' : Nat), m ≤ m' →
    wallaceBoundAux fuel m ≤ wallaceBoundAux fuel m'
  | 0, _, _, _ => Nat.le_refl _
  | fuel + 1, m, m', h => by
    simp only [wallaceBoundAux]
    by_cases h2 : m ≤ 2
    · rw [if_pos h2]
      exact Nat.zero_le _
    · rw [if_neg h2, if_neg (by omega)]
      have := wallaceBoundAux_mono fuel (wallaceTarget m) (wallaceTarget m')
        (wallaceTarget_mono h)
      omega

theorem wallaceLoop_count : ∀ (fuel : Nat) (ranks : List (List Bool)),
    (wallaceLoop fuel ranks).2.length ≤ wallaceBoundAux fuel (maxRankSize ranks)
  | 0, ranks => by simp [wallaceLoop, wallaceBoundAux]
  | fuel + 1, ranks => by
    simp only [wallaceLoop, wallaceBoundAux]
    by_cases hm : maxRankSize ranks > 2
    · rw [if_pos hm, if_neg (by omega)]
      rcases hst : wallaceStage (wallaceTarget (maxRankSize ranks)) ranks with ⟨ranks1, infos⟩
      rcases hlp : wallaceLoop fuel ranks1 with ⟨res, stages⟩
      simp only [List.length_cons]
      have ih := wallaceLoop_count fuel ranks1
      rw [hlp] at ih
      have hmax := wallaceStage_max (maxRankSize ranks) ranks (by omega) (Nat.le_refl _)
      rw [hst] at hmax
      have hmono := wallaceBoundAux_mono fuel (maxRankSize ranks1)
        (wallaceTarget (maxRankSize ranks)) (by simpa using hmax)
      simp only at ih
      omega
    · rw [if_neg hm, if_pos (by omega)]
      simp

/-! ## Wallace stage-count bound: `wallaceBoundAux fuel m ≤ 2 log2 m + 2` -/

theorem wallaceBoundAux_two : ∀ (fuel m : Nat), m ≤ 2 → wallaceBoundAux fuel m = 0
  | 0, _, _ => rfl
  | fuel + 1, m, h => by simp [wallaceBoundAux, h]

theorem wallaceBoundAux_cap3 : ∀ (fuel m : Nat), m ≤ 3 → wallaceBoundAux fuel m ≤ 1
  | 0, _, _ => Nat.zero_le _
  | fuel + 1, m, h => by
    simp only [wallaceBoundAux]
    by_cases h2 : m ≤ 2
    · rw [if_pos h2]; omega
    · rw [if_neg h2]
      have := wallaceBoundAux_two fuel (wallaceTarget m) (by unfold wallaceTarget; omega)
      omega

theorem wallaceBoundAux_cap4 : ∀ (fuel m : Nat), m ≤ 4 → wallaceBoundAux fuel m ≤ 2
  | 0, _, _ => Nat.zero_le _
  | fuel + 1, m, h => by
    simp only [wallaceBoundAux]
    by_cases h2 : m ≤ 2
    · rw [if_pos h2]; omega
    · rw [if_neg h2]
      have := wallaceBoundAux_cap3 fuel (wallaceTarget m) (by unfold wallaceTarget; omega)
      omega

theorem wallaceBoundAux_cap5 : ∀ (fuel m : Nat), m ≤ 5 → wallaceBoundAux fuel m ≤ 3
  | 0, _, _ => Nat.zero_le _
  | fuel + 1, m, h => by
    simp only [wallaceBoundAux]
    by_cases h2 : m ≤ 2
    · rw [if_pos h2]; omega
    · rw [if_neg h2]
      have := wallaceBoundAux_cap4 fuel (wallaceTarget m) (by unfold wallaceTarget; omega)
      omega

theorem wallaceBoundAux_cap7 : ∀ (fuel m : Nat), m ≤ 7 → wallaceBoundAux fuel m ≤ 4
  | 0, _, _ => Nat.zero_le _
  | fuel + 1, m, h => by
    simp only [wallaceBoundAux]
    by_cases h2 : m ≤ 2
    · rw [if_pos h2]; omega
    · rw [if_neg h2]
      have := wallaceBoundAux_cap5 fuel (wallaceTarget m) (by unfold wallaceTarget; omega)
      omega

theorem wallaceBoundAux_cap10 : ∀ (fuel m : Nat), m ≤ 10 → wallaceBoundAux fuel m ≤ 5
  | 0, _, _ => Nat.zero_le _
  | fuel + 1, m, h => by
    simp only [wallaceBoundAux]
    by_cases h2 : m ≤ 2
    · rw [if_pos h2]; omega
    · rw [if_neg h2]
      have := wallaceBoundAux_cap7 fuel (wallaceTarget m) (by unfold wallaceTarget; omega)
      omega

theorem wallaceBoundAux_cap15 : ∀ (fuel m : Nat), m ≤ 15 → wallaceBoundAux fuel m ≤ 6
  | 0, _, _ => Nat.zero_le _
  | fuel + 1, m, h => by
    simp only [wallaceBoundAux]
    by_cases h2 : m ≤ 2
    · rw [if_pos h2]; omega
    · rw [if_neg h2]
      have := wallaceBoundAux_cap10 fuel (wallaceTarget m) (by unfold wallaceTarget; omega)
      omega

theorem wallaceBoundAux_cap20 : ∀ (fuel m : Nat), m ≤ 20 → wallaceBoundAux fuel m ≤ 7
  | 0, _, _ => Nat.zero_le _
  | fuel + 1, m, h => by
    simp only [wallaceBoundAux]
    by_cases h2 : m ≤ 2
    · rw [if_pos h2]; omega
    · rw [if_neg h2]
      have := wallaceBoundAux_cap15 fuel (wallaceTarget m) (by unfold wallaceTarget; omega)
      omega

theorem wallaceBoundAux_log : ∀ (m fuel : Nat), wallaceBoundAux fuel m ≤ 2 * Nat.log 2 m + 2 := by
  intro m
  induction m using Nat.strong_induction_on with
  | _ m ih =>
    intro fuel
    by_cases h2 : m ≤ 2
    · rw [wallaceBoundAux_two fuel m h2]; omega
    · by_cases h20 : m ≤ 20
      · by_cases h7 : m ≤ 7
        · have hlog : 1 ≤ Nat.log 2 m :=
            (Nat.pow_le_iff_le_log (by omega) (by omega)).1 (by omega)
          have := wallaceBoundAux_cap7 fuel m h7
          omega
        · by_cases h15 : m ≤ 15
          · have hlog : 3 ≤ Nat.log 2 m :=
              (Nat.pow_le_iff_le_log (by omega) (by omega)).1 (by omega)
            have := wallaceBoundAux_cap15 fuel m h15
            omega
          · have hlog : 4 ≤ Nat.log 2 m :=
              (Nat.pow_le_iff_le_log (by omega) (by omega)).1 (by omega)
            have := wallaceBoundAux_cap20 fuel m h20
            omega
      · -- m ≥ 21: unfold two stages; the height at least halves
        match fuel with
        | 0 => exact Nat.zero_le _
        | 1 =>
          simp only [wallaceBoundAux]
          rw [if_neg h2]
          omega
        | fuel + 2 =>
          have ht2 : ¬ (wallaceTarget m ≤ 2) := by unfold wallaceTarget; omega
          have htt : wallaceTarget (wallaceTarget m) ≤ m / 2 := by
            unfold wallaceTarget; omega
          have httpos : 2 < wallaceTarget (wallaceTarget m) := by
            unfold wallaceTarget; omega
          have hlt : wallaceTarget (wallaceTarget m) < m := by
            unfold wallaceTarget; omega
          have ihtt := ih (wallaceTarget (wallaceTarget m)) hlt fuel
          have hmono : Nat.log 2 (wallaceTarget (wallaceTarget m)) ≤ Nat.log 2 (m / 2) :=
            Nat.log_mono_right htt
          have hdiv : Nat.log 2 (m / 2) = Nat.log 2 m - 1 := Nat.log_div_base 2 m
          have hpos : 1 ≤ Nat.log 2 m :=
            (Nat.pow_le_iff_le_log (by omega) (by omega)).1 (by omega)
          simp only [wallaceBoundAux]
          rw [if_neg h2, if_neg ht2]
          omega

/-! ## Wallace stage trace lemmas -/

theorem wallaceStageGo_infos_length : ∀ (ranks : List (List Bool)) (target : Nat)
    (f : Bool) (l : Nat) (cin : List Bool),
    (wallaceStageGo target f l cin ranks).2.length = ranks.length
  | [], target, f, l, cin => by
    by_cases hc : cin.isEmpty <;> simp [wallaceStageGo, hc]
  | r :: rs, target, f, l, cin => by
    rcases hr : wallaceRank target f l cin r with ⟨nr, cy, info, f1, l1⟩
    rcases hgo : wallaceStageGo target f1 l1 cy rs with ⟨rest, infos⟩
    have ih := wallaceStageGo_infos_length rs target f1 l1 cy
    rw [hgo] at ih
    simp only [wallaceStageGo, hr, hgo, List.length_cons]
    simp only at ih
    omega

theorem wallaceStageGo_has_iff : ∀ (ranks : List (List Bool)) (target : Nat)
    (f : Bool) (l : Nat) (cin : List Bool) (out : List (List Bool)) (infos : List WInfo),
    wallaceStageGo target f l cin ranks = (out, infos) →
    ∀ i (hi : i < infos.length),
    (infos.get ⟨i, hi⟩).has = 1 ↔
      (2 ≤ (infos.get ⟨i, hi⟩).hIn ∧ (infos.get ⟨i, hi⟩).hIn % 3 = 2 ∧
       (((infos.get ⟨i, hi⟩).firstIn = true ∧ (infos.get ⟨i, hi⟩).fas = 0) ∨
        (infos.get ⟨i, hi⟩).fas + (infos.get ⟨i, hi⟩).lastIn + 2 > target))
  | [], target, f, l, cin, out, infos, heq => by
    simp only [wallaceStageGo] at heq
    injection heq with h1 h2
    subst h2
    intro i hi
    simp at hi
  | r :: rs, target, f, l, cin, out, infos, heq => by
    rcases hr : wallaceRank target f l cin r with ⟨nr, cy, info, f1, l1⟩
    rcases hgo : wallaceStageGo target f1 l1 cy rs with ⟨rest, infos1⟩
    simp only [wallaceStageGo, hr, hgo, Prod.mk.injEq] at heq
    obtain ⟨rfl, rfl⟩ := heq
    have hspec := wallaceRank_spec target f l cin r nr cy info f1 l1 hr
    obtain ⟨hh, hli, hfi, hsk, hv, hcyl, hl1, hf1, hskipc, hredc⟩ := hspec
    intro i hi
    match i with
    | 0 =>
      show info.has = 1 ↔ (2 ≤ info.hIn ∧ info.hIn % 3 = 2 ∧
        ((info.firstIn = true ∧ info.fas = 0) ∨ info.fas + info.lastIn + 2 > target))
      by_cases hskip : info.skip
      · obtain ⟨hfz, hhz, hrl, _⟩ := hskipc hskip
        rw [hhz, hh]
        constructor
        · intro h; omega
        · rintro ⟨h2, _⟩; omega
      · have hskipf : info.skip = false := by revert hskip; cases info.skip <;> simp
        obtain ⟨hfa, hhas, hlen, hiff⟩ := hredc hskipf
        have hsk2 : ¬ (r.length < 2) := by
          intro hc
          have : info.skip = true := by rw [hsk]; simp [hc]
          rw [hskipf] at this
          cases this
        rw [hh, hli, hfi]
        constructor
        · intro h1
          have := hiff.1 h1
          exact ⟨by omega, this.1, this.2⟩
        · rintro ⟨h2, h3, h4⟩
          exact hiff.2 ⟨h3, h4⟩
    | i + 1 =>
      simp only [List.length_cons] at hi
      have ih := wallaceStageGo_has_iff rs target f1 l1 cy rest infos1 hgo i (by omega)
      exact ih

theorem wallaceStageGo_first_iff : ∀ (ranks : List (List Bool)) (target : Nat)
    (f : Bool) (l : Nat) (cin : List Bool) (out : List (List Bool)) (infos : List WInfo),
    wallaceStageGo target f l cin ranks = (out, infos) →
    ∀ i (hi : i < infos.length),
    ((infos.get ⟨i, hi⟩).firstIn = true ↔
      (f = true ∧ ∀ j (hj : j < i), (infos.get ⟨j, by omega⟩).hIn ≤ 1))
  | [], target, f, l, cin, out, infos, heq => by
    simp only [wallaceStageGo] at heq
    injection heq with h1 h2
    subst h2
    intro i hi
    simp at hi
  | r :: rs, target, f, l, cin, out, infos, heq => by
    rcases hr : wallaceRank target f l cin r with ⟨nr, cy, info, f1, l1⟩
    rcases hgo : wallaceStageGo target f1 l1 cy rs with ⟨rest, infos1⟩
    simp only [wallaceStageGo, hr, hgo, Prod.mk.injEq] at heq
    obtain ⟨rfl, rfl⟩ := heq
    have hspec := wallaceRank_spec target f l cin r nr cy info f1 l1 hr
    obtain ⟨hh, hli, hfi, hsk, hv, hcyl, hl1, hf1, hskipc, hredc⟩ := hspec
    intro i hi
    match i with
    | 0 =>
      show info.firstIn = true ↔ (f = true ∧ _)
      rw [hfi]
      constructor
      · intro hft; exact ⟨hft, fun j hj => by omega⟩
      · rintro ⟨hft, _⟩; exact hft
    | i + 1 =>
      simp only [List.length_cons] at hi
      have ih := wallaceStageGo_first_iff rs target f1 l1 cy rest infos1 hgo i (by omega)
      have hkey : f = true → ((info.fas + info.has = 0) ↔ r.length ≤ 1) := by
        intro hft
        by_cases hskip : info.skip
        · obtain ⟨hfz, hhz, hrl, _⟩ := hskipc hskip
          constructor
          · intro _; omega
          · intro _; omega
        · have hskipf : info.skip = false := by revert hskip; cases info.skip <;> simp
          obtain ⟨hfa, hhas, hlen, hiff⟩ := hredc hskipf
          have hsk2 : ¬ (r.length < 2) := by
            intro hc
            have : info.skip = true := by rw [hsk]; simp [hc]
            rw [hskipf] at this
            cases this
          constructor
          · intro hz
            by_cases h3 : 3 ≤ r.length
            · exfalso; omega
            · have hr2 : r.length = 2 := by omega
              have hhas1 : info.has = 1 :=
                hiff.2 ⟨by omega, Or.inl ⟨hft, by omega⟩⟩
              omega
          · intro _; omega
      constructor
      · intro hft
        obtain ⟨hf1t, htail⟩ := ih.1 hft
        rw [hf1] at hf1t
        simp only [Bool.and_eq_true, decide_eq_true_eq] at hf1t
        refine ⟨hf1t.1, ?_⟩
        intro j hj
        match j with
        | 0 =>
          show info.hIn ≤ 1
          rw [hh]
          exact ((hkey hf1t.1).1 hf1t.2)
        | j + 1 =>
          have := htail j (by omega)
          exact this
      · rintro ⟨hft, hall⟩
        have h0 : info.hIn ≤ 1 := by
          have := hall 0 (by omega)
          exact this
        rw [hh] at h0
        have hcnt0 : info.fas + info.has = 0 := (hkey hft).2 h0
        have hf1t : f1 = true := by
          rw [hf1]
          simp [hft, hcnt0]
        apply ih.2
        refine ⟨hf1t, ?_⟩
        intro j hj
        have := hall (j + 1) (by omega)
        exact this


end Compressor

namespace Compressor

/-! ## The Dadda rank step -/

theorem daddaRank_spec (d lc : Nat) (cin r : List Bool) (nr cy : List Bool) (info : DInfo)
    (lc1 : Nat) (entered : Bool)
    (heq : daddaRank d lc cin r = (nr, cy, info, lc1, entered)) :
    info.hIn = r.length ∧ info.lcIn = lc ∧
    info.skip = decide (r.length + lc ≤ d) ∧
    entered = !info.skip ∧
    boolsVal nr + 2 * boolsVal cy = boolsVal cin + boolsVal r ∧
    cy.length = info.fas + info.has ∧
    (info.skip = true → info.fas = 0 ∧ info.has = 0 ∧ r.length + lc ≤ d ∧
      lc1 = lc ∧ nr.length = cin.length + r.length) ∧
    (info.skip = false →
      d < r.length + lc ∧ lc1 = info.fas + info.has ∧ (info.has = 0 ∨ info.has = 1) ∧
      ∃ L0, r.length = 3 * info.fas + L0 ∧
        nr.length + 2 * info.has = cin.length + info.fas + info.has + L0 ∧
        (L0 + lc + info.fas ≤ d + 1 ∨ L0 < 3) ∧
        (info.has = 1 ↔ (2 ≤ L0 ∧ L0 + lc + info.fas = d + 1))) := by
  by_cases hskip : r.length + lc ≤ d
  · simp only [daddaRank, if_pos hskip, Prod.mk.injEq] at heq
    obtain ⟨rfl, rfl, rfl, rfl, rfl⟩ := heq
    refine ⟨rfl, rfl, by simp [hskip], by simp, ?_, by simp, ?_, by simp⟩
    · rw [boolsVal_append, boolsVal_reverse, boolsVal_nil]; omega
    · intro _
      refine ⟨rfl, rfl, hskip, rfl, ?_⟩
      simp only [List.length_append, List.length_reverse]
  · rcases hfa : daddaFA d lc 0 r with ⟨l, s, cys, nfa⟩
    obtain ⟨-, hlen, hs, hcy, hexit, hval⟩ := daddaFA_spec d lc 0 r l s cys nfa hfa
    simp only [Nat.sub_zero] at hs hcy
    simp only [Nat.mul_zero, Nat.add_zero] at hlen
    match l with
    | a :: b :: rest =>
      simp only [List.length_cons, boolsVal_cons] at hlen hval hexit
      by_cases hha : rest.length + 2 + lc + nfa = d + 1
      · simp only [daddaRank, if_neg hskip, hfa] at heq
        rw [if_pos (by omega)] at heq
        simp only [Prod.mk.injEq] at heq
        obtain ⟨rfl, rfl, rfl, rfl, rfl⟩ := heq
        have hab := ha_val a b
        refine ⟨rfl, rfl, by simp [hskip], by simp, ?_, ?_, by simp, ?_⟩
        · rw [boolsVal_append, boolsVal_reverse, boolsVal_append, boolsVal_append,
            boolsVal_append]
          simp only [boolsVal_cons, boolsVal_nil]
          omega
        · show (cys ++ [haCarry a b]).length = nfa + 1
          simp only [List.length_append, List.length_cons, List.length_nil, hcy]
        · intro _
          refine ⟨by omega, rfl, Or.inr rfl, rest.length + 2,
            show r.length = 3 * nfa + (rest.length + 2) by omega, ?_,
            Or.inl (show rest.length + 2 + lc + (nfa + 1) - 1 ≤ d + 1 - 1 + 1 - 1 + 1 by omega), ?_⟩
          · show _ + 2 * 1 = cin.length + nfa + 1 + (rest.length + 2)
            simp only [List.length_append, List.length_reverse, List.length_cons,
              List.length_nil, hs]
            omega
          · constructor
            · intro _
              exact ⟨by omega, show rest.length + 2 + lc + nfa = d + 1 by omega⟩
            · intro _; rfl
      · simp only [daddaRank, if_neg hskip, hfa] at heq
        rw [if_neg (by omega)] at heq
        simp only [Prod.mk.injEq] at heq
        obtain ⟨rfl, rfl, rfl, rfl, rfl⟩ := heq
        refine ⟨rfl, rfl, by simp [hskip], by simp, ?_, by simp [hcy], ?_⟩
        · rw [boolsVal_append, boolsVal_reverse, boolsVal_append]
          simp only [boolsVal_cons, boolsVal_nil]
          omega
        · refine ⟨by simp, ?_⟩
          intro _
          refine ⟨by omega, rfl, Or.inl rfl, rest.length + 2,
            show r.length = 3 * nfa + (rest.length + 2) by omega, ?_,
            show rest.length + 2 + lc + nfa ≤ d + 1 ∨ rest.length + 2 < 3 by omega, ?_⟩
          · show _ + 2 * 0 = cin.length + nfa + 0 + (rest.length + 2)
            simp only [List.length_append, List.length_reverse, List.length_cons,
              List.length_nil, hs]
            omega
          · constructor
            · intro h
              exact absurd (show (0 : Nat) = 1 from h) (by omega)
            · rintro ⟨-, hc⟩
              exact absurd (show rest.length + 2 + lc + nfa = d + 1 from hc) (by omega)
    | [] =>
      simp only [List.length_nil, boolsVal_nil] at hlen hval hexit
      simp only [daddaRank, if_neg hskip, hfa, Prod.mk.injEq] at heq
      obtain ⟨rfl, rfl, rfl, rfl, rfl⟩ := heq
      refine ⟨rfl, rfl, by simp [hskip], by simp, ?_, by simp [hcy], ?_⟩
      · rw [List.append_nil, boolsVal_reverse, boolsVal_append]; omega
      · refine ⟨by simp, ?_⟩
        intro _
        refine ⟨by omega, rfl, Or.inl rfl, 0,
          show r.length = 3 * nfa + 0 by omega, ?_, Or.inr (by omega), ?_⟩
        · show _ + 2 * 0 = cin.length + nfa + 0 + 0
          simp only [List.length_append, List.length_reverse, List.length_nil, hs]
        · constructor
          · intro h
            exact absurd (show (0 : Nat) = 1 from h) (by omega)
          · rintro ⟨hc, -⟩
            exact absurd hc (by omega)
    | [x] =>
      simp only [List.length_cons, List.length_nil, boolsVal_cons, boolsVal_nil]
        at hlen hval hexit
      simp only [daddaRank, if_neg hskip, hfa, Prod.mk.injEq] at heq
      obtain ⟨rfl, rfl, rfl, rfl, rfl⟩ := heq
      refine ⟨rfl, rfl, by simp [hskip], by simp, ?_, by simp [hcy], ?_⟩
      · rw [boolsVal_append, boolsVal_reverse, boolsVal_append]
        simp only [boolsVal_cons, boolsVal_nil]
        omega
      · refine ⟨by simp, ?_⟩
        intro _
        refine ⟨by omega, rfl, Or.inl rfl, 1,
          show r.length = 3 * nfa + 1 by omega, ?_, Or.inr (by omega), ?_⟩
        · show _ + 2 * 0 = cin.length + nfa + 0 + 1
          simp only [List.length_append, List.length_reverse, List.length_cons,
            List.length_nil, hs]
        · constructor
          · intro h
            exact absurd (show (0 : Nat) = 1 from h) (by omega)
          · rintro ⟨hc, -⟩
            exact absurd hc (by omega)

/-- The core Dadda stage invariant: with `2 ≤ d`, a stale carry count at most
`d / 2`, at most that many actual incoming carries, and rank height at most
`⌊3d/2⌋`, the processed rank ends no taller than `d`, the new carry count is
again at most `d / 2`, and a rank that enters the reduction branch applies at
least one adder (so its carry row is nonempty). -/
theorem daddaRank_bound (d lc : Nat) (cin r : List Bool) (nr cy : List Bool) (info : DInfo)
    (lc1 : Nat) (entered : Bool)
    (heq : daddaRank d lc cin r = (nr, cy, info, lc1, entered))
    (hd : 2 ≤ d) (hlc : lc ≤ d / 2) (hcin : cin.length ≤ lc)
    (hr : r.length ≤ d * 3 / 2) :
    nr.length ≤ d ∧ lc1 ≤ d / 2 ∧ cy.length ≤ lc1 ∧
    (entered = true → 1 ≤ cy.length) := by
  obtain ⟨hh, hlcin, hsk, hent, hv, hcyl, hskipc, hredc⟩ := daddaRank_spec d lc cin r nr cy
    info lc1 entered heq
  by_cases hskip : info.skip
  · obtain ⟨hfz, hhz, hle, rfl, hlen⟩ := hskipc hskip
    rw [hent, hskip]
    refine ⟨by omega, hlc, by omega, by simp⟩
  · have hskipf : info.skip = false := by revert hskip; cases info.skip <;> simp
    obtain ⟨hgt, rfl, hhas, L0, hL0, hlen, hexit, hiff⟩ := hredc hskipf
    rw [hent, hskipf]
    rcases hhas with h0 | h1
    · -- no half adder was applied
      have hnha : L0 < 2 ∨ L0 + lc + info.fas ≠ d + 1 := by
        by_cases hl2 : 2 ≤ L0
        · refine Or.inr (fun he => ?_)
          have := hiff.2 ⟨hl2, he⟩
          omega
        · exact Or.inl (by omega)
      rcases hexit with hex | hex <;> rcases hnha with hn | hn <;>
        exact ⟨by omega, by omega, by omega, fun _ => by omega⟩
    · -- a half adder was applied
      have hif := hiff.1 h1
      refine ⟨by omega, by omega, by omega, by omega⟩

end Compressor

namespace Compressor

/-! ## Dadda stage lemmas -/

theorem daddaStageGo_val : ∀ (ranks : List (List Bool)) (d lc : Nat) (cin : List Bool)
    (rowMade : Bool) (out : List (List Bool)) (infos : List DInfo),
    daddaStageGo d lc cin rowMade ranks = some (out, infos) →
    ranksVal out = boolsVal cin + ranksVal ranks
  | [], d, lc, cin, rowMade, out, infos, heq => by
    simp only [daddaStageGo] at heq
    by_cases hc : (rowMade && cin.isEmpty) = true
    · rw [if_pos hc] at heq; cases heq
    · rw [if_neg hc] at heq
      injection heq with heq2
      injection heq2 with h1 h2
      subst h1
      by_cases he : cin.isEmpty
      · have : cin = [] := List.isEmpty_iff.1 he
        simp [he, this, ranksVal, boolsVal]
      · simp [he, ranksVal, boolsVal_reverse]
  | r :: rs, d, lc, cin, rowMade, out, infos, heq => by
    rcases hr : daddaRank d lc cin r with ⟨nr, cy, info, lc1, entered⟩
    simp only [daddaStageGo, hr] at heq
    rcases hgo : daddaStageGo d lc1 cy entered rs with - | ⟨rest, infos1⟩
    · rw [hgo] at heq; cases heq
    · rw [hgo] at heq
      simp only [Option.some.injEq, Prod.mk.injEq] at heq
      obtain ⟨⟨rfl, rfl⟩⟩ := heq
      have ih := daddaStageGo_val rs d lc1 cy entered rest infos1 hgo
      have hv := (daddaRank_spec d lc cin r nr cy info lc1 entered hr).2.2.2.2.1
      simp only [ranksVal_cons]
      omega

theorem daddaStageGo_bound : ∀ (ranks : List (List Bool)) (d lc : Nat) (cin : List Bool)
    (rowMade : Bool),
    2 ≤ d → lc ≤ d / 2 → cin.length ≤ lc → (rowMade = true → 1 ≤ cin.length) →
    (∀ r ∈ ranks, r.length ≤ d * 3 / 2) →
    ∃ out infos, daddaStageGo d lc cin rowMade ranks = some (out, infos) ∧
      ∀ nr ∈ out, nr.length ≤ d
  | [], d, lc, cin, rowMade, hd, hlc, hcin, hrow, hranks => by
    refine ⟨if cin.isEmpty then [] else [cin.reverse], [], ?_, ?_⟩
    · simp only [daddaStageGo]
      rw [if_neg ?_]
      by_cases hrm : rowMade
      · have := hrow hrm
        have : ¬ cin.isEmpty := by
          cases cin
          · simp at this
          · simp
        simp [hrm, this]
      · simp [hrm]
    · intro nr hnr
      by_cases he : cin.isEmpty
      · rw [if_pos he] at hnr; cases hnr
      · rw [if_neg he] at hnr
        rw [List.mem_singleton] at hnr
        subst hnr
        simp only [List.length_reverse]
        omega
  | r :: rs, d, lc, cin, rowMade, hd, hlc, hcin, hrow, hranks => by
    rcases hr : daddaRank d lc cin r with ⟨nr0, cy, info, lc1, entered⟩
    obtain ⟨hb1, hb2, hb3, hb4⟩ := daddaRank_bound d lc cin r nr0 cy info lc1 entered hr
      hd hlc hcin (hranks r (List.mem_cons_self r rs))
    obtain ⟨rest, infos1, hgo, hbound⟩ := daddaStageGo_bound rs d lc1 cy entered
      hd hb2 hb3 hb4 (fun x hx => hranks x (List.mem_cons_of_mem r hx))
    refine ⟨nr0 :: rest, info :: infos1, ?_, ?_⟩
    · simp only [daddaStageGo, hr, hgo]
    · intro nr hnr
      rw [List.mem_cons] at hnr
      rcases hnr with rfl | hmem
      · exact hb1
      · exact hbound nr hmem

theorem daddaStageGo_lcIn : ∀ (ranks : List (List Bool)) (d lc : Nat) (cin : List Bool)
    (rowMade : Bool) (out : List (List Bool)) (infos : List DInfo),
    daddaStageGo d lc cin rowMade ranks = some (out, infos) →
    infos.length = ranks.length ∧
    (∀ h0 : 0 < infos.length, (infos.get ⟨0, h0⟩).lcIn = lc) ∧
    (∀ i (hi : i + 1 < infos.length),
      (infos.get ⟨i + 1, hi⟩).lcIn =
        if (infos.get ⟨i, by omega⟩).skip = true
        then (infos.get ⟨i, by omega⟩).lcIn
        else (infos.get ⟨i, by omega⟩).fas + (infos.get ⟨i, by omega⟩).has)
  | [], d, lc, cin, rowMade, out, infos, heq => by
    simp only [daddaStageGo] at heq
    by_cases hc : (rowMade && cin.isEmpty) = true
    · rw [if_pos hc] at heq; cases heq
    · rw [if_neg hc] at heq
      injection heq with heq2
      injection heq2 with h1 h2
      subst h2
      refine ⟨rfl, ?_, ?_⟩
      · intro h0; simp at h0
      · intro i hi; simp at hi
  | r :: rs, d, lc, cin, rowMade, out, infos, heq => by
    rcases hr : daddaRank d lc cin r with ⟨nr, cy, info, lc1, entered⟩
    simp only [daddaStageGo, hr] at heq
    rcases hgo : daddaStageGo d lc1 cy entered rs with - | ⟨rest, infos1⟩
    · rw [hgo] at heq; cases heq
    · rw [hgo] at heq
      simp only [Option.some.injEq, Prod.mk.injEq] at heq
      obtain ⟨h1, h2⟩ := heq
      subst h1
      subst h2
      obtain ⟨ihlen, ihhead, ihstep⟩ := daddaStageGo_lcIn rs d lc1 cy entered rest infos1 hgo
      obtain ⟨hh, hlcin, hsk, hent, hv, hcyl, hskipc, hredc⟩ :=
        daddaRank_spec d lc cin r nr cy info lc1 entered hr
      refine ⟨by simp [ihlen], ?_, ?_⟩
      · intro h0
        exact hlcin
      · intro i hi
        match i with
        | 0 =>
          -- relate `lc1` (used for the second rank) to the first rank's trace
          show (infos1.get ⟨0, by simpa using hi⟩).lcIn =
            if info.skip = true then info.lcIn else info.fas + info.has
          rw [ihhead (by simpa using hi)]
          by_cases hskip : info.skip
          · rw [if_pos hskip]
            obtain ⟨-, -, -, hlc1, -⟩ := hskipc hskip
            rw [hlc1, hlcin]
          · have hskipf : info.skip = false := by revert hskip; cases info.skip <;> simp
            rw [if_neg (by rw [hskipf]; simp)]
            obtain ⟨-, hlc1, -⟩ := hredc hskipf
            exact hlc1
        | i + 1 =>
          have := ihstep i (by simpa using hi)
          exact this

end Compressor

namespace Compressor

/-! ## Schedule lemmas -/

theorem dFactorsGo_mem : ∀ (m fuel d : Nat), ∀ x ∈ dFactorsGo m fuel d, d ≤ x ∧ x < m
  | m, 0, d => by intro x hx; simp [dFactorsGo] at hx
  | m, fuel + 1, d => by
    intro x hx
    simp only [dFactorsGo] at hx
    by_cases hd : d < m
    · rw [if_pos hd] at hx
      rw [List.mem_cons] at hx
      rcases hx with rfl | hx
      · exact ⟨Nat.le_refl _, hd⟩
      · have := dFactorsGo_mem m fuel (d * 3 / 2) x hx
        constructor
        · omega
        · exact this.2
    · rw [if_neg hd] at hx
      cases hx

theorem dFactorsGo_head : ∀ (m fuel d : Nat) (x : Nat) (t : List Nat),
    dFactorsGo m fuel d = x :: t → x = d
  | m, 0, d, x, t, heq => by simp [dFactorsGo] at heq
  | m, fuel + 1, d, x, t, heq => by
    simp only [dFactorsGo] at heq
    by_cases hd : d < m
    · rw [if_pos hd] at heq
      injection heq with h1 h2
      exact h1.symm
    · rw [if_neg hd] at heq
      cases heq

end Compressor

namespace Compressor

theorem dFactorsGo_chain : ∀ (m fuel d : Nat),
    List.Chain' (fun x y => y = x * 3 / 2) (dFactorsGo m fuel d)
  | m, 0, d => by simp [dFactorsGo]
  | m, fuel + 1, d => by
    simp only [dFactorsGo]
    by_cases hd : d < m
    · rw [if_pos hd]
      rw [List.chain'_cons']
      refine ⟨?_, dFactorsGo_chain m fuel (d * 3 / 2)⟩
      intro y hy
      rcases hh : dFactorsGo m fuel (d * 3 / 2) with - | ⟨z, t⟩
      · rw [hh] at hy; cases hy
      · rw [hh] at hy
        simp only [List.head?_cons, Option.mem_def, Option.some.injEq] at hy
        subst hy
        exact dFactorsGo_head m fuel (d * 3 / 2) z t hh
    · rw [if_neg hd]
      simp

theorem dFactorsGo_last : ∀ (m fuel d : Nat), 2 ≤ d → m ≤ d + fuel →
    (dFactorsGo m fuel d = [] → m ≤ d) ∧
    (∀ x, (dFactorsGo m fuel d).getLast? = some x → m ≤ x * 3 / 2)
  | m, 0, d, h2, hf => by
    refine ⟨fun _ => by omega, fun x hx => by simp [dFactorsGo] at hx⟩
  | m, fuel + 1, d, h2, hf => by
    by_cases hd : d < m
    · have hstep : d + 1 ≤ d * 3 / 2 := by omega
      have ih := dFactorsGo_last m fuel (d * 3 / 2) (by omega) (by omega)
      constructor
      · intro hc
        simp only [dFactorsGo, if_pos hd] at hc
        cases hc
      · intro x hx
        simp only [dFactorsGo, if_pos hd] at hx
        rcases hh : dFactorsGo m fuel (d * 3 / 2) with - | ⟨z, t⟩
        · rw [hh] at hx
          simp only [List.getLast?_singleton, Option.some.injEq] at hx
          subst hx
          exact ih.1 hh
        · rw [hh] at hx
          rw [List.getLast?_cons_cons] at hx
          apply ih.2
          rw [hh]
          exact hx
    · constructor
      · intro _; omega
      · intro x hx
        simp only [dFactorsGo, if_neg hd] at hx
        simp at hx

theorem advanceD_spec : ∀ (fsRev : List Nat) (d m1 : Nat),
    2 ≤ d → (∀ x ∈ fsRev, 2 ≤ x) →
    List.Chain' (fun x y => x = y * 3 / 2) (d :: fsRev) →
    (fsRev = [] → d = 2) →
    (fsRev ≠ [] → fsRev.getLast? = some 2) →
    m1 ≤ d →
    ∀ fs1 d1, advanceD m1 fsRev d = (fs1, d1) →
    2 ≤ d1 ∧ (∀ x ∈ fs1, 2 ≤ x) ∧
    List.Chain' (fun x y => x = y * 3 / 2) (d1 :: fs1) ∧
    (fs1 = [] → d1 = 2) ∧
    (fs1 ≠ [] → fs1.getLast? = some 2) ∧
    m1 ≤ d1 * 3 / 2 ∧
    (2 < m1 → d1 < m1) ∧
    (2 < m1 → d1 < d) ∧
    (∀ x ∈ d1 :: fs1, x ∈ d :: fsRev) ∧
    (fsRev = [] ∨ fs1.length < fsRev.length)
  | [], d, m1, h2, hall, hchain, hemp, hlast, hm1, fs1, d1, heq => by
    simp only [advanceD] at heq
    injection heq with ha hb
    subst ha
    subst hb
    have hd2 : d = 2 := hemp rfl
    subst hd2
    refine ⟨by omega, by simp, by simp, fun _ => rfl, by simp, by omega, by omega,
      fun hm => by omega, by simp, Or.inl rfl⟩
  | f :: fs, d, m1, h2, hall, hchain, hemp, hlast, hm1, fs1, d1, heq => by
    have hf2 : 2 ≤ f := hall f (List.mem_cons_self f fs)
    have hrel : d = f * 3 / 2 := (List.chain'_cons.1 hchain).1
    have hchain1 : List.Chain' (fun x y => x = y * 3 / 2) (f :: fs) :=
      (List.chain'_cons.1 hchain).2
    have hflt : f < d := by omega
    have hlast1 : fs ≠ [] → fs.getLast? = some 2 := by
      intro hne
      have hl := hlast (by simp)
      rcases hfe : fs with - | ⟨z, t⟩
      · exact absurd hfe hne
      · rw [hfe] at hl
        rw [List.getLast?_cons_cons] at hl
        exact hl
    have hemp1 : fs = [] → f = 2 := by
      intro hfs
      have hl := hlast (by simp)
      rw [hfs] at hl
      simpa using hl
    simp only [advanceD] at heq
    by_cases hb : f < m1
    · rw [if_pos hb] at heq
      injection heq with ha hb2
      subst ha
      subst hb2
      have htail : ∀ x ∈ fs, 2 ≤ x := fun x hx => hall x (List.mem_cons_of_mem f hx)
      refine ⟨hf2, htail, hchain1, hemp1, hlast1, by omega, fun _ => hb,
        fun _ => by omega, ?_, Or.inr (by simp)⟩
      intro x hx
      exact List.mem_cons_of_mem d hx
    · rw [if_neg hb] at heq
      have ih := advanceD_spec fs f m1 hf2
        (fun x hx => hall x (List.mem_cons_of_mem f hx)) hchain1 hemp1 hlast1
        (by omega) fs1 d1 heq
      obtain ⟨i1, i2, i3, i4, i5, i6, i7, i8, i9, i10⟩ := ih
      refine ⟨i1, i2, i3, i4, i5, i6, i7, ?_, ?_, ?_⟩
      · intro hm
        have h8 := i8 hm
        omega
      · intro x hx
        have hmem := i9 x hx
        rw [List.mem_cons] at hmem ⊢
        rcases hmem with rfl | hmem
        · exact Or.inr (List.mem_cons_self x fs)
        · exact Or.inr (List.mem_cons_of_mem f hmem)
      · rcases i10 with h | h
        · subst h
          simp only [advanceD] at heq
          injection heq with ha hb2
          subst ha
          exact Or.inr (by simp)
        · refine Or.inr ?_
          simp only [List.length_cons]
          omega

end Compressor

namespace Compressor

/-! ## The Dadda loop -/

/-- Master invariant lemma for the Dadda reduction loop: it never performs the
out-of-bounds merge read (the result is `some`), conserves the rank-structure
value, ends with maximum height at most 2, runs at most one stage more than
there are remaining d-factors, and each stage ends within its threshold, which
strictly decrease along the run. -/
theorem daddaLoop_spec : ∀ (fuel : Nat) (ranks : List (List Bool)) (d : Nat)
    (fsRev : List Nat),
    2 ≤ d → (∀ x ∈ fsRev, 2 ≤ x) →
    List.Chain' (fun x y => x = y * 3 / 2) (d :: fsRev) →
    (fsRev = [] → d = 2) →
    (fsRev ≠ [] → fsRev.getLast? = some 2) →
    maxRankSize ranks ≤ d * 3 / 2 →
    (2 < maxRankSize ranks → d < maxRankSize ranks) →
    maxRankSize ranks ≤ fuel + 2 →
    ∃ res stages, daddaLoop fuel ranks d fsRev = some (res, stages) ∧
      ranksVal res = ranksVal ranks ∧
      maxRankSize res ≤ 2 ∧
      stages.length ≤ fsRev.length + 1 ∧
      (maxRankSize ranks ≤ 2 → stages = []) ∧
      (∀ st ∈ stages, 2 < st.startMax ∧ st.endMax ≤ st.d ∧ st.endMax < st.startMax ∧
        st.d ∈ d :: fsRev ∧ 2 ≤ st.d ∧
        ∃ rks out1, daddaStage st.d rks = some (out1, st.infos) ∧
          maxRankSize rks = st.startMax ∧ maxRankSize out1 = st.endMax) ∧
      (∀ st0, stages.head? = some st0 → st0.d = d ∧ st0.startMax = maxRankSize ranks) ∧
      List.Chain' (fun a b => b < a) (stages.map DStage.d)
  | 0, ranks, d, fsRev => by
    intro h2 hall hchain hemp hlast hsize hdlt hfuel
    refine ⟨ranks, [], rfl, rfl, by omega, by simp, fun _ => rfl, ?_, ?_, by simp⟩
    · intro st hst; cases hst
    · intro st0 hst0; cases hst0
  | fuel + 1, ranks, d, fsRev => by
    intro h2 hall hchain hemp hlast hsize hdlt hfuel
    by_cases hm : maxRankSize ranks > 2
    · have hdm := hdlt hm
      obtain ⟨out, infos, hstage, hbound⟩ := daddaStageGo_bound ranks d 0 [] false
        h2 (by omega) (by simp) (by simp) ((maxRankSize_iff ranks _).1 hsize)
      have hm1 : maxRankSize out ≤ d := (maxRankSize_iff out d).2 hbound
      rcases hadv : advanceD (maxRankSize out) fsRev d with ⟨fs1, d1⟩
      obtain ⟨i1, i2, i3, i4, i5, i6, i7, i8, i9, i10⟩ :=
        advanceD_spec fsRev d (maxRankSize out) h2 hall hchain hemp hlast hm1 fs1 d1 hadv
      obtain ⟨res, stages1, hrec, hval, hres2, hlen, hshort, hstall, hshead, hchain2⟩ :=
        daddaLoop_spec fuel out d1 fs1 i1 i2 i3 i4 i5 i6 i7 (by omega)
      have hsval := daddaStageGo_val ranks d 0 [] false out infos hstage
      refine ⟨res, ⟨d, maxRankSize ranks, infos, maxRankSize out⟩ :: stages1, ?_, ?_, hres2,
        ?_, ?_, ?_, ?_, ?_⟩
      · have hstage2 : daddaStage d ranks = some (out, infos) := hstage
        simp only [daddaLoop, if_pos hm, hstage2, hadv, hrec]
      · rw [hval]
        simp only [boolsVal_nil] at hsval
        omega
      · simp only [List.length_cons]
        rcases i10 with h | h
        · subst h
          have hd2 : d = 2 := hemp rfl
          have : stages1 = [] := hshort (by omega)
          subst this
          simp
        · omega
      · intro hc; omega
      · intro st hst
        rw [List.mem_cons] at hst
        rcases hst with rfl | hmem
        · exact ⟨hm, hm1, show maxRankSize out < maxRankSize ranks by omega,
            List.mem_cons_self d fsRev, h2, ranks, out, hstage, rfl, rfl⟩
        · obtain ⟨s1, s2, s3, s4, s5, s6⟩ := hstall st hmem
          exact ⟨s1, s2, s3, i9 st.d s4, s5, s6⟩
      · intro st0 hst0
        simp only [List.head?_cons, Option.some.injEq] at hst0
        subst hst0
        exact ⟨rfl, rfl⟩
      · simp only [List.map_cons]
        rw [List.chain'_cons']
        refine ⟨?_, hchain2⟩
        intro y hy
        rcases hs1 : stages1 with - | ⟨st1, rest1⟩
        · rw [hs1] at hy; simp at hy
        · rw [hs1] at hy
          simp only [List.map_cons, List.head?_cons, Option.mem_def, Option.some.injEq] at hy
          subst hy
          have hh1 := hshead st1 (by rw [hs1]; rfl)
          have hmem1 : st1 ∈ stages1 := by rw [hs1]; exact List.mem_cons_self st1 rest1
          obtain ⟨s1, -, -, -, -, -⟩ := hstall st1 hmem1
          have : 2 < maxRankSize out := by
            rw [← hh1.2]; exact s1
          have := i8 this
          show st1.d < d
          omega
    · refine ⟨ranks, [], ?_, rfl, by omega, by simp, fun _ => rfl, ?_, ?_, by simp⟩
      · simp only [daddaLoop, if_neg hm]
      · intro st hst; cases hst
      · intro st0 hst0; cases hst0

end Compressor

namespace Compressor

/-! ## The full Dadda reduction -/

theorem dFactors_eq_nil (m : Nat) (h : dFactors m = []) : m ≤ 2 := by
  by_contra hc
  obtain ⟨k, rfl⟩ : ∃ k, m = k + 3 := ⟨m - 3, by omega⟩
  simp only [dFactors, dFactorsGo, if_pos (show 2 < k + 3 by omega)] at h
  exact List.noConfusion h

/-- Wrapper invariant for the complete Dadda reduction (`daddaReduce`): the
factor schedule built by `dFactors` satisfies the hypotheses of
`daddaLoop_spec`, so the reduction succeeds (no out-of-bounds merge), conserves
the value, ends at height at most 2, uses at most one stage more than there
are collected factors, and every stage's threshold is a collected factor, with
the first stage using the largest and the thresholds strictly decreasing. -/
theorem daddaReduce_spec (ranks : List (List Bool)) :
    ∃ res stages, daddaReduce ranks = some (res, stages) ∧
      ranksVal res = ranksVal ranks ∧
      maxRankSize res ≤ 2 ∧
      stages.length ≤ (dFactors (maxRankSize ranks)).length + 1 ∧
      (maxRankSize ranks ≤ 2 → stages = []) ∧
      (∀ st ∈ stages, 2 < st.startMax ∧ st.endMax ≤ st.d ∧ st.endMax < st.startMax ∧
        st.d ∈ dFactors (maxRankSize ranks) ∧ 2 ≤ st.d ∧
        ∃ rks out1, daddaStage st.d rks = some (out1, st.infos) ∧
          maxRankSize rks = st.startMax ∧ maxRankSize out1 = st.endMax) ∧
      (∀ st0, stages.head? = some st0 → st0.startMax = maxRankSize ranks ∧
        (dFactors (maxRankSize ranks)).getLast? = some st0.d) ∧
      List.Chain' (fun a b => b < a) (stages.map DStage.d) := by
  rcases hrev : (dFactors (maxRankSize ranks)).reverse with - | ⟨f, rest⟩
  · have hnil : dFactors (maxRankSize ranks) = [] := by
      have := congrArg List.reverse hrev
      simpa using this
    have hm2 : maxRankSize ranks ≤ 2 := dFactors_eq_nil _ hnil
    obtain ⟨res, stages, hloop, hval, hres, hlen, hshort, hstall, hhead, hch⟩ :=
      daddaLoop_spec (maxRankSize ranks) ranks 2 [] (Nat.le_refl 2) (by simp)
        (by simp) (fun _ => rfl) (fun hc => absurd rfl hc) (by omega)
        (fun hc => hc) (by omega)
    have hstages : stages = [] := hshort hm2
    subst hstages
    refine ⟨res, [], ?_, hval, hres, by simp, fun _ => rfl, ?_, ?_, by simp⟩
    · simp only [daddaReduce]
      rw [hrev]
      exact hloop
    · intro st hst; cases hst
    · intro st0 hst0; cases hst0
  · have hmemrev : ∀ x ∈ f :: rest, x ∈ dFactors (maxRankSize ranks) := by
      intro x hx
      rw [← List.mem_reverse, hrev]
      exact hx
    have hmem2 : ∀ x ∈ f :: rest, 2 ≤ x ∧ x < maxRankSize ranks := by
      intro x hx
      exact dFactorsGo_mem (maxRankSize ranks) (maxRankSize ranks) 2 x (hmemrev x hx)
    have hf2 : 2 ≤ f := (hmem2 f (List.mem_cons_self f rest)).1
    have hfm : f < maxRankSize ranks := (hmem2 f (List.mem_cons_self f rest)).2
    have hchain : List.Chain' (fun x y => x = y * 3 / 2) (f :: rest) := by
      rw [← hrev, List.chain'_reverse]
      exact List.Chain'.imp (fun a b h => h)
        (dFactorsGo_chain (maxRankSize ranks) (maxRankSize ranks) 2)
    have hgl : (dFactors (maxRankSize ranks)).getLast? = some f := by
      rw [← List.head?_reverse, hrev]
      rfl
    have hsize : maxRankSize ranks ≤ f * 3 / 2 :=
      (dFactorsGo_last (maxRankSize ranks) (maxRankSize ranks) 2 (Nat.le_refl 2)
        (by omega)).2 f hgl
    have hemp : rest = [] → f = 2 := by
      intro hr
      subst hr
      have hone : dFactors (maxRankSize ranks) = [f] := by
        have := congrArg List.reverse hrev
        simpa using this
      exact dFactorsGo_head _ _ _ f [] hone
    have hlast : rest ≠ [] → rest.getLast? = some 2 := by
      intro hr
      rcases hdf : dFactors (maxRankSize ranks) with - | ⟨x, t⟩
      · rw [hdf] at hrev; simp at hrev
      · have hx2 : x = 2 := dFactorsGo_head _ _ _ x t hdf
        subst hx2
        have h1 : (f :: rest).getLast? = some 2 := by
          rw [← hrev, List.getLast?_reverse, hdf]
          rfl
        rcases rest with - | ⟨r0, rt⟩
        · exact absurd rfl hr
        · rwa [List.getLast?_cons_cons] at h1
    obtain ⟨res, stages, hloop, hval, hres, hlen, hshort, hstall, hhead, hch⟩ :=
      daddaLoop_spec (maxRankSize ranks) ranks f rest hf2
        (fun x hx => (hmem2 x (List.mem_cons_of_mem f hx)).1)
        hchain hemp hlast hsize (fun _ => hfm) (by omega)
    refine ⟨res, stages, ?_, hval, hres, ?_, hshort, ?_, ?_, hch⟩
    · simp only [daddaReduce]
      rw [hrev]
      exact hloop
    · have hlen2 : (f :: rest).length = (dFactors (maxRankSize ranks)).length := by
        rw [← hrev, List.length_reverse]
      simp only [List.length_cons] at hlen2
      omega
    · intro st hst
      obtain ⟨s1, s2, s3, s4, s5, s6⟩ := hstall st hst
      exact ⟨s1, s2, s3, hmemrev st.d s4, s5, s6⟩
    · intro st0 hst0
      obtain ⟨hd0, hs0⟩ := hhead st0 hst0
      exact ⟨hs0, by rw [hd0]; exact hgl⟩

/-! ## Length of the factor schedule (logarithmic) -/

theorem dFactorsGo_growth : ∀ (fuel m d k : Nat), 2 ≤ d →
    2 * k + 1 ≤ (dFactorsGo m fuel d).length → d * 2 ^ k < m
  | 0, m, d, k, h2, hlen => by simp [dFactorsGo] at hlen
  | 1, m, d, k, h2, hlen => by
    simp only [dFactorsGo] at hlen
    by_cases hd : d < m
    · rw [if_pos hd] at hlen
      simp only [List.length_cons, List.length_nil] at hlen
      have hk : k = 0 := by omega
      subst hk
      simpa using hd
    · rw [if_neg hd] at hlen
      simp at hlen
  | fuel + 2, m, d, k, h2, hlen => by
    rw [show fuel + 2 = (fuel + 1) + 1 from rfl] at hlen
    simp only [dFactorsGo] at hlen
    by_cases hd : d < m
    · rw [if_pos hd] at hlen
      simp only [List.length_cons] at hlen
      cases k with
      | zero => simpa using hd
      | succ j =>
        by_cases hd1 : d * 3 / 2 < m
        · rw [if_pos hd1] at hlen
          simp only [List.length_cons] at hlen
          have h2' : 2 * j + 1 ≤ (dFactorsGo m fuel (d * 3 / 2 * 3 / 2)).length := by
            omega
          have ih := dFactorsGo_growth fuel m (d * 3 / 2 * 3 / 2) j (by omega) h2'
          have hgrow : 2 * d ≤ d * 3 / 2 * 3 / 2 := by omega
          calc d * 2 ^ (j + 1) = 2 * d * 2 ^ j := by ring
            _ ≤ (d * 3 / 2 * 3 / 2) * 2 ^ j := Nat.mul_le_mul_right _ hgrow
            _ < m := ih
        · rw [if_neg hd1] at hlen
          simp only [List.length_cons, List.length_nil] at hlen
          omega
    · rw [if_neg hd] at hlen
      simp at hlen

theorem dFactors_length_le (m : Nat) : (dFactors m).length ≤ 2 * Nat.log 2 m := by
  by_cases h0 : (dFactors m).length = 0
  · omega
  · have hk : 2 * (((dFactors m).length - 1) / 2) + 1 ≤ (dFactors m).length := by omega
    have hg := dFactorsGo_growth m m 2 (((dFactors m).length - 1) / 2) (Nat.le_refl 2) hk
    have hpow : 2 ^ (((dFactors m).length - 1) / 2 + 1) ≤ m := by
      have hsplit : 2 ^ (((dFactors m).length - 1) / 2 + 1) =
          2 * 2 ^ (((dFactors m).length - 1) / 2) := by ring
      omega
    have hlog := (Nat.pow_le_iff_le_log (by norm_num) (by omega)).1 hpow
    omega

end Compressor

namespace Compressor

/-! ## Provenance of the Wallace stage traces -/

/-- Each recorded Wallace stage's trace is the trace of `wallaceStage` run on
some rank structure with the stage's recorded target. -/
theorem wallaceLoop_stages_infos : ∀ (fuel : Nat) (ranks : List (List Bool)),
    ∀ st ∈ (wallaceLoop fuel ranks).2,
      ∃ rks out1, wallaceStage st.target rks = (out1, st.infos)
  | 0, ranks => by intro st hst; cases hst
  | fuel + 1, ranks => by
    intro st hst
    simp only [wallaceLoop] at hst
    by_cases hm : maxRankSize ranks > 2
    · rw [if_pos hm] at hst
      rcases hst2 : wallaceStage (wallaceTarget (maxRankSize ranks)) ranks with ⟨ranks1, infos⟩
      rw [hst2] at hst
      rcases hlp : wallaceLoop fuel ranks1 with ⟨res, stages⟩
      rw [hlp] at hst
      simp only [List.mem_cons] at hst
      rcases hst with rfl | hmem
      · exact ⟨ranks, ranks1, hst2⟩
      · have ih := wallaceLoop_stages_infos fuel ranks1 st
        rw [hlp] at ih
        exact ih hmem
    · rw [if_neg hm] at hst
      cases hst

/-- C2 (amended): in every Wallace stage, a rank gets exactly one half adder
iff its height leaves remainder 2 after the full-adder loop (height ≥ 2 and
height mod 3 = 2) and either (a') no adder has been applied yet this stage —
all earlier ranks had height at most 1 — *and* no full adder was applied to
this rank itself, or (b) its full-adder count plus the previous rank's adder
count plus the remaining height 2 exceeds the stage target.  (The original
clause (a), "first rank of the stage that had height ≥ 2", is refuted by
`c2_counterexample`: the code's flag is also cleared by the current rank's
own full adders.) -/
theorem c2_wallace_half_adder (ranks : List (List Bool)) (st : WStage)
    (hst : st ∈ (wallaceReduce ranks).2) (i : Nat) (hi : i < st.infos.length) :
    ((st.infos.get ⟨i, hi⟩).has = 1 ↔
      (2 ≤ (st.infos.get ⟨i, hi⟩).hIn ∧ (st.infos.get ⟨i, hi⟩).hIn % 3 = 2 ∧
       (((∀ j (hj : j < i), (st.infos.get ⟨j, by omega⟩).hIn ≤ 1) ∧
           (st.infos.get ⟨i, hi⟩).fas = 0) ∨
        st.target < (st.infos.get ⟨i, hi⟩).fas + (st.infos.get ⟨i, hi⟩).lastIn + 2))) := by
  obtain ⟨rks, out1, hstage⟩ := wallaceLoop_stages_infos (maxRankSize ranks) ranks st hst
  have hhas := wallaceStageGo_has_iff rks st.target true 0 [] out1 st.infos hstage i hi
  have hfirst := wallaceStageGo_first_iff rks st.target true 0 [] out1 st.infos hstage i hi
  rw [hhas]
  constructor
  · rintro ⟨h1, h2, h3 | h3⟩
    · exact ⟨h1, h2, Or.inl ⟨(hfirst.1 h3.1).2, h3.2⟩⟩
    · exact ⟨h1, h2, Or.inr (by omega)⟩
  · rintro ⟨h1, h2, h3 | h3⟩
    · exact ⟨h1, h2, Or.inl ⟨hfirst.2 ⟨rfl, h3.1⟩, h3.2⟩⟩
    · exact ⟨h1, h2, Or.inr (by omega)⟩

/-- Witness for `c2_wallace_half_adder` at the input `[[1,1],[1,1,1]]`: its
single Wallace stage (target 2) applies one half adder to rank 0 (height 2,
no earlier reducible rank, no full adder on it). -/
theorem c2_wallace_half_adder_witness :
    (⟨3, 2, [⟨2, 0, true, false, 0, 1⟩, ⟨3, 1, false, false, 1, 0⟩], 2⟩ : WStage) ∈
        (wallaceReduce [[true, true], [true, true, true]]).2 ∧
    ((([⟨2, 0, true, false, 0, 1⟩, ⟨3, 1, false, false, 1, 0⟩] : List WInfo).get
          ⟨0, Nat.zero_lt_succ 1⟩).has = 1 ↔
      (2 ≤ (([⟨2, 0, true, false, 0, 1⟩, ⟨3, 1, false, false, 1, 0⟩] : List WInfo).get
          ⟨0, Nat.zero_lt_succ 1⟩).hIn ∧
       (([⟨2, 0, true, false, 0, 1⟩, ⟨3, 1, false, false, 1, 0⟩] : List WInfo).get
          ⟨0, Nat.zero_lt_succ 1⟩).hIn % 3 = 2 ∧
       (((∀ j (hj : j < 0), (([⟨2, 0, true, false, 0, 1⟩, ⟨3, 1, false, false, 1, 0⟩] :
              List WInfo).get ⟨j, by omega⟩).hIn ≤ 1) ∧
           (([⟨2, 0, true, false, 0, 1⟩, ⟨3, 1, false, false, 1, 0⟩] : List WInfo).get
              ⟨0, Nat.zero_lt_succ 1⟩).fas = 0) ∨
        2 < (([⟨2, 0, true, false, 0, 1⟩, ⟨3, 1, false, false, 1, 0⟩] : List WInfo).get
              ⟨0, Nat.zero_lt_succ 1⟩).fas +
            (([⟨2, 0, true, false, 0, 1⟩, ⟨3, 1, false, false, 1, 0⟩] : List WInfo).get
              ⟨0, Nat.zero_lt_succ 1⟩).lastIn + 2))) :=
  ⟨by decide, c2_wallace_half_adder [[true, true], [true, true, true]]
    ⟨3, 2, [⟨2, 0, true, false, 0, 1⟩, ⟨3, 1, false, false, 1, 0⟩], 2⟩ (by decide) 0
    (Nat.zero_lt_succ 1)⟩

/-- C2 counterexample to the claim as stated: on the single rank
`[1,1,1,1,1]`, the first (and only) stage has target `⌊5/3⌋·2 + 5 mod 3 = 4`.
Rank 0 is the first rank of the stage that had height ≥ 2, and after the
full-adder loop (one full adder) its remaining height is exactly 2, so clause
(a) of the claim requires a half adder; its counts give 1 + 0 + 2 = 3 ≤ 4, so
clause (b) does not apply.  The recorded trace `⟨hIn 5, lastIn 0, firstIn
true, skip false, fas 1, has 0⟩` shows no half adder was applied: the code's
`is_first_reducible_rank` flag is cleared by the rank's own full adder before
the half-adder test, so "first rank that had height ≥ 2" is not what the code
implements. -/
theorem c2_counterexample :
    ∃ st ∈ (wallaceReduce [[true, true, true, true, true]]).2,
      st.target = 4 ∧ st.infos.head? = some ⟨5, 0, true, false, 1, 0⟩ := by
  decide

end Compressor

namespace Compressor

/-! ## The finisher: step equations and shape lemmas -/

/-- Output pin emitted for a rank that lies before the start of the adder
chain: its (single) pin passed through directly, or the constant-zero pin for
an empty rank (lines 415–422). -/
def passPin : List Bool → OutPin
  | [] => OutPin.zero
  | x :: _ => OutPin.direct x

theorem finGo_nil (cur i : Nat) (adder : Option (Nat × Nat)) :
    finGo cur i adder [] = ⟨[], adder, [], []⟩ := rfl

theorem finGo_cons_nil_none (cur i : Nat) (rs : List (List Bool)) :
    finGo cur i none ([] :: rs) =
      ⟨OutPin.zero :: (finGo cur (i + 1) none rs).ret,
       (finGo cur (i + 1) none rs).adder,
       (finGo cur (i + 1) none rs).connsA,
       (finGo cur (i + 1) none rs).connsB⟩ := rfl

theorem finGo_cons_one_none (cur i : Nat) (x : Bool) (rs : List (List Bool)) :
    finGo cur i none ([x] :: rs) =
      ⟨OutPin.direct x :: (finGo cur (i + 1) none rs).ret,
       (finGo cur (i + 1) none rs).adder,
       (finGo cur (i + 1) none rs).connsA,
       (finGo cur (i + 1) none rs).connsB⟩ := rfl

theorem finGo_cons_none_start (cur i : Nat) (x y : Bool) (xs : List Bool)
    (rs : List (List Bool)) :
    finGo cur i none ((x :: y :: xs) :: rs) =
      ⟨OutPin.addOut 0 :: (finGo cur (i + 1) (some (i, cur - i)) rs).ret,
       (finGo cur (i + 1) (some (i, cur - i)) rs).adder,
       (0, x) :: (finGo cur (i + 1) (some (i, cur - i)) rs).connsA,
       (0, y) :: (finGo cur (i + 1) (some (i, cur - i)) rs).connsB⟩ := by
  rcases xs with - | ⟨z, zs⟩
  · have h0 : finGo cur i none ([x, y] :: rs) =
        ⟨OutPin.addOut (i - i) :: (finGo cur (i + 1) (some (i, cur - i)) rs).ret,
         (finGo cur (i + 1) (some (i, cur - i)) rs).adder,
         (i - i, x) :: (finGo cur (i + 1) (some (i, cur - i)) rs).connsA,
         (i - i, y) :: (finGo cur (i + 1) (some (i, cur - i)) rs).connsB⟩ := rfl
    rw [h0, Nat.sub_self]
  · have h0 : finGo cur i none ((x :: y :: z :: zs) :: rs) =
        ⟨OutPin.addOut (i - i) :: (finGo cur (i + 1) (some (i, cur - i)) rs).ret,
         (finGo cur (i + 1) (some (i, cur - i)) rs).adder,
         (i - i, x) :: (finGo cur (i + 1) (some (i, cur - i)) rs).connsA,
         (i - i, y) :: (finGo cur (i + 1) (some (i, cur - i)) rs).connsB⟩ := rfl
    rw [h0, Nat.sub_self]

theorem finGo_cons_nil_some (cur i s w : Nat) (rs : List (List Bool)) :
    finGo cur i (some (s, w)) ([] :: rs) =
      ⟨OutPin.zero :: (finGo cur (i + 1) (some (s, w)) rs).ret,
       (finGo cur (i + 1) (some (s, w)) rs).adder,
       (finGo cur (i + 1) (some (s, w)) rs).connsA,
       (finGo cur (i + 1) (some (s, w)) rs).connsB⟩ := rfl

theorem finGo_cons_some_one (cur i s w : Nat) (x : Bool) (rs : List (List Bool)) :
    finGo cur i (some (s, w)) ([x] :: rs) =
      ⟨OutPin.addOut (i - s) :: (finGo cur (i + 1) (some (s, w)) rs).ret,
       (finGo cur (i + 1) (some (s, w)) rs).adder,
       (i - s, x) :: (finGo cur (i + 1) (some (s, w)) rs).connsA,
       (i - s, false) :: (finGo cur (i + 1) (some (s, w)) rs).connsB⟩ := rfl

theorem finGo_cons_some_two (cur i s w : Nat) (x y : Bool) (xs : List Bool)
    (rs : List (List Bool)) :
    finGo cur i (some (s, w)) ((x :: y :: xs) :: rs) =
      ⟨OutPin.addOut (i - s) :: (finGo cur (i + 1) (some (s, w)) rs).ret,
       (finGo cur (i + 1) (some (s, w)) rs).adder,
       (i - s, x) :: (finGo cur (i + 1) (some (s, w)) rs).connsA,
       (i - s, y) :: (finGo cur (i + 1) (some (s, w)) rs).connsB⟩ := rfl

theorem finGo_ret_length : ∀ (rs : List (List Bool)) (cur i : Nat)
    (adder : Option (Nat × Nat)), (finGo cur i adder rs).ret.length = rs.length
  | [], _, _, _ => rfl
  | r :: rs, cur, i, adder => by
    have ih := finGo_ret_length rs cur (i + 1)
    rcases adder with - | ⟨s, w⟩
    · rcases r with - | ⟨x, - | ⟨y, xs⟩⟩
      · rw [finGo_cons_nil_none]
        simp only [List.length_cons, ih]
      · rw [finGo_cons_one_none]
        simp only [List.length_cons, ih]
      · rw [finGo_cons_none_start]
        simp only [List.length_cons, ih]
    · rcases r with - | ⟨x, - | ⟨y, xs⟩⟩
      · rw [finGo_cons_nil_some]
        simp only [List.length_cons, ih]
      · rw [finGo_cons_some_one]
        simp only [List.length_cons, ih]
      · rw [finGo_cons_some_two]
        simp only [List.length_cons, ih]

theorem finGo_adder_some : ∀ (rs : List (List Bool)) (cur i s w : Nat),
    (finGo cur i (some (s, w)) rs).adder = some (s, w)
  | [], _, _, _, _ => rfl
  | r :: rs, cur, i, s, w => by
    have ih := finGo_adder_some rs cur (i + 1) s w
    rcases r with - | ⟨x, - | ⟨y, xs⟩⟩
    · rw [finGo_cons_nil_some]; exact ih
    · rw [finGo_cons_some_one]; exact ih
    · rw [finGo_cons_some_two]; exact ih

/-- Before the first rank of height > 1, every rank is passed through (its pin
directly, or the zero pin), with no adder state change and no connections. -/
theorem finGo_none_append : ∀ (pre rest : List (List Bool)) (cur i : Nat),
    (∀ r ∈ pre, r.length ≤ 1) →
    finGo cur i none (pre ++ rest) =
      ⟨pre.map passPin ++ (finGo cur (i + pre.length) none rest).ret,
       (finGo cur (i + pre.length) none rest).adder,
       (finGo cur (i + pre.length) none rest).connsA,
       (finGo cur (i + pre.length) none rest).connsB⟩
  | [], rest, cur, i, _ => by
    simp only [List.map_nil, List.nil_append, List.length_nil, Nat.add_zero]
  | r :: pre, rest, cur, i, hall => by
    have hr := hall r (List.mem_cons_self r pre)
    have ih := finGo_none_append pre rest cur (i + 1)
      (fun x hx => hall x (List.mem_cons_of_mem r hx))
    rcases r with - | ⟨x, - | ⟨y, xs⟩⟩
    · rw [List.cons_append, finGo_cons_nil_none, ih]
      simp only [List.map_cons, List.cons_append, List.length_cons, passPin]
      rw [show i + 1 + pre.length = i + (pre.length + 1) from by omega]
    · rw [List.cons_append, finGo_cons_one_none, ih]
      simp only [List.map_cons, List.cons_append, List.length_cons, passPin]
      rw [show i + 1 + pre.length = i + (pre.length + 1) from by omega]
    · simp only [List.length_cons] at hr
      omega

/-- Lower bound on every adder connection index and every adder-output index
produced from rank position `i` on (the chain start is `s ≤ i`). -/
theorem finGo_conns_lb : ∀ (rs : List (List Bool)) (cur i s w : Nat), s ≤ i →
    (∀ p ∈ (finGo cur i (some (s, w)) rs).connsA, i - s ≤ p.1) ∧
    (∀ p ∈ (finGo cur i (some (s, w)) rs).connsB, i - s ≤ p.1) ∧
    (∀ m, OutPin.addOut m ∈ (finGo cur i (some (s, w)) rs).ret → i - s ≤ m)
  | [], cur, i, s, w, hsi => by
    refine ⟨?_, ?_, ?_⟩
    · intro p hp; cases hp
    · intro p hp; cases hp
    · intro m hm; cases hm
  | r :: rs, cur, i, s, w, hsi => by
    obtain ⟨ihA, ihB, ihR⟩ := finGo_conns_lb rs cur (i + 1) s w (by omega)
    rcases r with - | ⟨x, - | ⟨y, xs⟩⟩
    · rw [finGo_cons_nil_some]
      refine ⟨?_, ?_, ?_⟩
      · intro p hp
        have := ihA p hp
        omega
      · intro p hp
        have := ihB p hp
        omega
      · intro m hm
        rw [List.mem_cons] at hm
        rcases hm with hm | hm
        · cases hm
        · have := ihR m hm
          omega
    · rw [finGo_cons_some_one]
      refine ⟨?_, ?_, ?_⟩
      · intro p hp
        rw [List.mem_cons] at hp
        rcases hp with rfl | hp
        · exact Nat.le_refl _
        · have := ihA p hp
          omega
      · intro p hp
        rw [List.mem_cons] at hp
        rcases hp with rfl | hp
        · exact Nat.le_refl _
        · have := ihB p hp
          omega
      · intro m hm
        rw [List.mem_cons] at hm
        rcases hm with hm | hm
        · injection hm with hm
          omega
        · have := ihR m hm
          omega
    · rw [finGo_cons_some_two]
      refine ⟨?_, ?_, ?_⟩
      · intro p hp
        rw [List.mem_cons] at hp
        rcases hp with rfl | hp
        · exact Nat.le_refl _
        · have := ihA p hp
          omega
      · intro p hp
        rw [List.mem_cons] at hp
        rcases hp with rfl | hp
        · exact Nat.le_refl _
        · have := ihB p hp
          omega
      · intro m hm
        rw [List.mem_cons] at hm
        rcases hm with hm | hm
        · injection hm with hm
          omega
        · have := ihR m hm
          omega

/-- An empty rank inside the adder span gets the constant-zero output pin, no
connection feeds the adder at its bit position, and the adder's output pin at
that position is never placed in the output list. -/
theorem finGo_empty_some : ∀ (rs : List (List Bool)) (cur i s w k : Nat),
    s ≤ i → rs.get? k = some [] →
    ((finGo cur i (some (s, w)) rs).ret.get? k = some OutPin.zero) ∧
    (∀ b, (i + k - s, b) ∉ (finGo cur i (some (s, w)) rs).connsA) ∧
    (∀ b, (i + k - s, b) ∉ (finGo cur i (some (s, w)) rs).connsB) ∧
    (OutPin.addOut (i + k - s) ∉ (finGo cur i (some (s, w)) rs).ret)
  | [], cur, i, s, w, k, hsi, hk => by simp [List.get?] at hk
  | r :: rs, cur, i, s, w, k, hsi, hk => by
    match k with
    | 0 =>
      have hr : r = [] := by
        injection hk
      subst hr
      obtain ⟨lbA, lbB, lbR⟩ := finGo_conns_lb rs cur (i + 1) s w (by omega)
      rw [finGo_cons_nil_some]
      refine ⟨rfl, ?_, ?_, ?_⟩
      · intro b hmem
        have := lbA _ hmem
        simp only at this
        omega
      · intro b hmem
        have := lbB _ hmem
        simp only at this
        omega
      · intro hmem
        rw [List.mem_cons] at hmem
        rcases hmem with hmem | hmem
        · cases hmem
        · have := lbR _ hmem
          omega
    | j + 1 =>
      have hkj : rs.get? j = some [] := hk
      obtain ⟨ih1, ih2, ih3, ih4⟩ :=
        finGo_empty_some rs cur (i + 1) s w j (by omega) hkj
      have harith : i + 1 + j - s = i + (j + 1) - s := by omega
      rw [harith] at ih2 ih3 ih4
      rcases r with - | ⟨x, - | ⟨y, xs⟩⟩
      · rw [finGo_cons_nil_some]
        refine ⟨ih1, ?_, ?_, ?_⟩
        · exact ih2
        · exact ih3
        · intro hmem
          rw [List.mem_cons] at hmem
          rcases hmem with hmem | hmem
          · cases hmem
          · exact ih4 hmem
      · rw [finGo_cons_some_one]
        refine ⟨ih1, ?_, ?_, ?_⟩
        · intro b hmem
          rw [List.mem_cons] at hmem
          rcases hmem with hmem | hmem
          · injection hmem with h1 h2
            omega
          · exact ih2 b hmem
        · intro b hmem
          rw [List.mem_cons] at hmem
          rcases hmem with hmem | hmem
          · injection hmem with h1 h2
            omega
          · exact ih3 b hmem
        · intro hmem
          rw [List.mem_cons] at hmem
          rcases hmem with hmem | hmem
          · injection hmem with hmem
            omega
          · exact ih4 hmem
      · rw [finGo_cons_some_two]
        refine ⟨ih1, ?_, ?_, ?_⟩
        · intro b hmem
          rw [List.mem_cons] at hmem
          rcases hmem with hmem | hmem
          · injection hmem with h1 h2
            omega
          · exact ih2 b hmem
        · intro b hmem
          rw [List.mem_cons] at hmem
          rcases hmem with hmem | hmem
          · injection hmem with h1 h2
            omega
          · exact ih3 b hmem
        · intro hmem
          rw [List.mem_cons] at hmem
          rcases hmem with hmem | hmem
          · injection hmem with hmem
            omega
          · exact ih4 hmem

end Compressor

namespace Compressor

/-! ## Finisher shape: adder placement and outputs -/

theorem passPin_ne_addOut (q : List Bool) (m : Nat) : passPin q ≠ OutPin.addOut m := by
  rcases q with - | ⟨a, t⟩ <;> simp [passPin]

/-- A rank structure with every rank of height at most 1 synthesizes no adder:
every rank is passed through (or zero-filled). -/
theorem ranksToAdderChain_small (rks : List (List Bool)) (h : ∀ x ∈ rks, x.length ≤ 1) :
    ranksToAdderChain rks = ⟨rks.map passPin, none, [], []⟩ := by
  have happ := finGo_none_append rks [] rks.length 0 h
  rw [List.append_nil, finGo_nil] at happ
  simp only [ranksToAdderChain, happ, List.append_nil]

/-- Splitting at the first rank of height > 1: the finisher passes the prefix
through, starts the adder there (width = number of remaining ranks), and
appends the adder's carry-out pin. -/
theorem ranksToAdderChain_split (pre post : List (List Bool)) (x y : Bool) (xs : List Bool)
    (hpre : ∀ q ∈ pre, q.length ≤ 1) :
    ranksToAdderChain (pre ++ (x :: y :: xs) :: post) =
      ⟨(pre.map passPin ++ OutPin.addOut 0 ::
          (finGo (pre ++ (x :: y :: xs) :: post).length (pre.length + 1)
            (some (pre.length, (pre ++ (x :: y :: xs) :: post).length - pre.length))
            post).ret)
        ++ [OutPin.addOut ((pre ++ (x :: y :: xs) :: post).length - pre.length)],
       some (pre.length, (pre ++ (x :: y :: xs) :: post).length - pre.length),
       (0, x) :: (finGo (pre ++ (x :: y :: xs) :: post).length (pre.length + 1)
         (some (pre.length, (pre ++ (x :: y :: xs) :: post).length - pre.length))
         post).connsA,
       (0, y) :: (finGo (pre ++ (x :: y :: xs) :: post).length (pre.length + 1)
         (some (pre.length, (pre ++ (x :: y :: xs) :: post).length - pre.length))
         post).connsB⟩ := by
  have happ := finGo_none_append pre ((x :: y :: xs) :: post)
    (pre ++ (x :: y :: xs) :: post).length 0 hpre
  rw [Nat.zero_add] at happ
  have hf : finGo (pre ++ (x :: y :: xs) :: post).length 0 none
      (pre ++ (x :: y :: xs) :: post) =
      ⟨pre.map passPin ++ OutPin.addOut 0 ::
         (finGo (pre ++ (x :: y :: xs) :: post).length (pre.length + 1)
           (some (pre.length, (pre ++ (x :: y :: xs) :: post).length - pre.length))
           post).ret,
       (finGo (pre ++ (x :: y :: xs) :: post).length (pre.length + 1)
         (some (pre.length, (pre ++ (x :: y :: xs) :: post).length - pre.length))
         post).adder,
       (0, x) :: (finGo (pre ++ (x :: y :: xs) :: post).length (pre.length + 1)
         (some (pre.length, (pre ++ (x :: y :: xs) :: post).length - pre.length))
         post).connsA,
       (0, y) :: (finGo (pre ++ (x :: y :: xs) :: post).length (pre.length + 1)
         (some (pre.length, (pre ++ (x :: y :: xs) :: post).length - pre.length))
         post).connsB⟩ := by
    rw [happ, finGo_cons_none_start]
  have hadd := finGo_adder_some post (pre ++ (x :: y :: xs) :: post).length
    (pre.length + 1) pre.length ((pre ++ (x :: y :: xs) :: post).length - pre.length)
  rw [hadd] at hf
  simp only [ranksToAdderChain, hf]

/-- C5: for every rank structure of height ≤ 2, splitting at the first rank
with height > 1 (all earlier ranks have height ≤ 1), the finisher synthesizes
one adder starting there whose width is the number of remaining ranks, returns
one output pin per rank plus exactly one trailing carry-out pin (the adder's
top output); with no rank of height > 1 there is no adder, no connection and
no extra pin, and the empty structure yields the empty output with no adder
and no gates. -/
theorem c5_finisher_shape (ranks pre post : List (List Bool)) (r : List Bool)
    (hh : ∀ q ∈ ranks, q.length ≤ 2)
    (hsplit : ranks = pre ++ r :: post) (hpre : ∀ q ∈ pre, q.length ≤ 1)
    (hr : 1 < r.length) :
    (ranksToAdderChain ranks).adder = some (pre.length, ranks.length - pre.length) ∧
    (ranksToAdderChain ranks).ret.length = ranks.length + 1 ∧
    (ranksToAdderChain ranks).ret.get? ranks.length =
      some (OutPin.addOut (ranks.length - pre.length)) ∧
    ranksToAdderChain [] = ⟨[], none, [], []⟩ ∧
    (∀ rks : List (List Bool), (∀ q ∈ rks, q.length ≤ 1) →
      (ranksToAdderChain rks).adder = none ∧
      (ranksToAdderChain rks).ret.length = rks.length ∧
      (ranksToAdderChain rks).connsA = [] ∧
      (ranksToAdderChain rks).connsB = []) := by
  have hsmall : ∀ rks : List (List Bool), (∀ q ∈ rks, q.length ≤ 1) →
      (ranksToAdderChain rks).adder = none ∧
      (ranksToAdderChain rks).ret.length = rks.length ∧
      (ranksToAdderChain rks).connsA = [] ∧
      (ranksToAdderChain rks).connsB = [] := by
    intro rks hq
    rw [ranksToAdderChain_small rks hq]
    exact ⟨rfl, by simp, rfl, rfl⟩
  rcases r with - | ⟨x, - | ⟨y, xs⟩⟩
  · simp at hr
  · simp at hr
  · subst hsplit
    have hrta := ranksToAdderChain_split pre post x y xs hpre
    have hretlen := finGo_ret_length post (pre ++ (x :: y :: xs) :: post).length
      (pre.length + 1)
      (some (pre.length, (pre ++ (x :: y :: xs) :: post).length - pre.length))
    refine ⟨?_, ?_, ?_, rfl, hsmall⟩
    · rw [hrta]
    · rw [hrta]
      have h := hretlen
      simp only [List.length_append, List.length_cons, List.length_map,
        List.length_nil] at h ⊢
      omega
    · rw [hrta]
      have hlen1 : (pre.map passPin ++ OutPin.addOut 0 ::
          (finGo (pre ++ (x :: y :: xs) :: post).length (pre.length + 1)
            (some (pre.length, (pre ++ (x :: y :: xs) :: post).length - pre.length))
            post).ret).length = (pre ++ (x :: y :: xs) :: post).length := by
        have h := hretlen
        simp only [List.length_append, List.length_cons, List.length_map] at h ⊢
        omega
      rw [List.get?_append_right (Nat.le_of_eq hlen1), hlen1, Nat.sub_self]
      rfl

/-- Witness for `c5_finisher_shape` at `[[1],[1,1]]`: the adder starts at rank
1 with width 1, the output has 3 pins and ends with the adder's carry-out. -/
theorem c5_finisher_shape_witness :
    (ranksToAdderChain [[true], [true, true]]).adder = some (1, 1) ∧
    (ranksToAdderChain [[true], [true, true]]).ret.length = 3 ∧
    (ranksToAdderChain [[true], [true, true]]).ret.get? 2 = some (OutPin.addOut 1) ∧
    ranksToAdderChain [] = ⟨[], none, [], []⟩ ∧
    (∀ rks : List (List Bool), (∀ q ∈ rks, q.length ≤ 1) →
      (ranksToAdderChain rks).adder = none ∧
      (ranksToAdderChain rks).ret.length = rks.length ∧
      (ranksToAdderChain rks).connsA = [] ∧
      (ranksToAdderChain rks).connsB = []) :=
  c5_finisher_shape [[true], [true, true]] [[true]] [] [true, true]
    (by decide) rfl (by decide) (by decide)

/-- C10: an empty rank at position `k` inside the adder span (the chain starts
at `pre.length ≤ k`) gets the constant-zero pin as its output, no input pin is
connected to the adder at bit position `k - pre.length` on either operand, and
the adder's output pin for that position never appears in the returned
sequence — the adder's carry into that bit is silently dropped from the
output. -/
theorem c10_empty_rank_in_span (ranks pre post : List (List Bool)) (r : List Bool)
    (k : Nat)
    (hsplit : ranks = pre ++ r :: post) (hpre : ∀ q ∈ pre, q.length ≤ 1)
    (hr : 1 < r.length) (hk : pre.length ≤ k) (hke : ranks.get? k = some []) :
    (ranksToAdderChain ranks).ret.get? k = some OutPin.zero ∧
    (∀ b, (k - pre.length, b) ∉ (ranksToAdderChain ranks).connsA) ∧
    (∀ b, (k - pre.length, b) ∉ (ranksToAdderChain ranks).connsB) ∧
    OutPin.addOut (k - pre.length) ∉ (ranksToAdderChain ranks).ret := by
  rcases r with - | ⟨x, - | ⟨y, xs⟩⟩
  · simp at hr
  · simp at hr
  · subst hsplit
    have hklen : k < (pre ++ (x :: y :: xs) :: post).length := by
      rcases List.get?_eq_some.1 hke with ⟨h2, -⟩
      exact h2
    have hks : pre.length < k := by
      rcases Nat.lt_or_ge pre.length k with h | h
      · exact h
      · have hkeq : k = pre.length := by omega
        subst hkeq
        rw [List.get?_append_right (Nat.le_refl pre.length), Nat.sub_self] at hke
        cases hke
    have hkj : k - pre.length = (k - pre.length - 1) + 1 := by omega
    have hpost : post.get? (k - pre.length - 1) = some [] := by
      rw [List.get?_append_right (by omega : pre.length ≤ k), hkj] at hke
      exact hke
    obtain ⟨e1, e2, e3, e4⟩ := finGo_empty_some post
      (pre ++ (x :: y :: xs) :: post).length (pre.length + 1) pre.length
      ((pre ++ (x :: y :: xs) :: post).length - pre.length) (k - pre.length - 1)
      (by omega) hpost
    have hidx : pre.length + 1 + (k - pre.length - 1) - pre.length = k - pre.length := by
      omega
    rw [hidx] at e2 e3 e4
    have hrta := ranksToAdderChain_split pre post x y xs hpre
    have hretlen := finGo_ret_length post (pre ++ (x :: y :: xs) :: post).length
      (pre.length + 1)
      (some (pre.length, (pre ++ (x :: y :: xs) :: post).length - pre.length))
    have hlen1 : (pre.map passPin ++ OutPin.addOut 0 ::
        (finGo (pre ++ (x :: y :: xs) :: post).length (pre.length + 1)
          (some (pre.length, (pre ++ (x :: y :: xs) :: post).length - pre.length))
          post).ret).length = (pre ++ (x :: y :: xs) :: post).length := by
      have h := hretlen
      simp only [List.length_append, List.length_cons, List.length_map] at h ⊢
      omega
    refine ⟨?_, ?_, ?_, ?_⟩
    · rw [hrta]
      rw [List.get?_append (by rw [hlen1]; exact hklen)]
      rw [List.get?_append_right (by rw [List.length_map]; omega), List.length_map, hkj]
      rw [List.get?_cons_succ]
      exact e1
    · intro b hmem
      rw [hrta] at hmem
      rw [List.mem_cons] at hmem
      rcases hmem with hmem | hmem
      · injection hmem with h1 h2
        omega
      · exact e2 b hmem
    · intro b hmem
      rw [hrta] at hmem
      rw [List.mem_cons] at hmem
      rcases hmem with hmem | hmem
      · injection hmem with h1 h2
        omega
      · exact e3 b hmem
    · intro hmem
      rw [hrta] at hmem
      rw [List.mem_append] at hmem
      rcases hmem with hmem | hmem
      · rw [List.mem_append] at hmem
        rcases hmem with hmem | hmem
        · rcases List.mem_map.1 hmem with ⟨q, -, hq⟩
          exact passPin_ne_addOut q _ hq
        · rw [List.mem_cons] at hmem
          rcases hmem with hmem | hmem
          · injection hmem with hmem
            omega
          · exact e4 hmem
      · rw [List.mem_singleton] at hmem
        injection hmem with hmem
        have hlentot : (pre ++ (x :: y :: xs) :: post).length =
            pre.length + post.length + 1 := by
          simp only [List.length_append, List.length_cons]
          omega
        omega

/-- Witness for `c10_empty_rank_in_span` at `[[1,1],[]]`: rank 1 is empty and
inside the adder span that starts at rank 0. -/
theorem c10_empty_rank_in_span_witness :
    (ranksToAdderChain [[true, true], []]).ret.get? 1 = some OutPin.zero ∧
    (∀ b, (1, b) ∉ (ranksToAdderChain [[true, true], []]).connsA) ∧
    (∀ b, (1, b) ∉ (ranksToAdderChain [[true, true], []]).connsB) ∧
    OutPin.addOut 1 ∉ (ranksToAdderChain [[true, true], []]).ret :=
  c10_empty_rank_in_span [[true, true], []] [] [[]] [true, true] 1
    rfl (by decide) (by decide) (by decide) rfl

end Compressor

namespace Compressor

/-! ## Claim theorems: cell builders, value conservation, Dadda properties -/

/-- C6: `implement_HA` returns sum `a ⊕ b` and carry `a ∧ b`; `implement_FA`
returns sum `a ⊕ b ⊕ c` and carry `majority(a,b,c) = (a∧b)∨(b∧c)∨(a∧c)`,
the carry being structurally one `LOGICAL_OR` node fed by the three
`implement_AND` gates on the pairs `(a,b)`, `(a,c)`, `(b,c)`; all outputs are
freshly created gate pins, distinct from every input pin (and the builders are
pure functions of their inputs: nothing is mutated). -/
theorem c6_cell_builders (env : Nat → Bool) (a b c : GPin) :
    evalG env (implement_HA a b).1 = xor (evalG env a) (evalG env b) ∧
    evalG env (implement_HA a b).2 = (evalG env a && evalG env b) ∧
    evalG env (implement_FA a b c).1 =
      xor (xor (evalG env a) (evalG env b)) (evalG env c) ∧
    evalG env (implement_FA a b c).2 =
      ((evalG env a && evalG env b) || (evalG env b && evalG env c) ||
       (evalG env a && evalG env c)) ∧
    (implement_FA a b c).2 =
      GPin.or3 (implement_AND a b) (implement_AND a c) (implement_AND b c) ∧
    (implement_HA a b).1 ≠ a ∧ (implement_HA a b).1 ≠ b ∧
    (implement_HA a b).2 ≠ a ∧ (implement_HA a b).2 ≠ b ∧
    (implement_FA a b c).1 ≠ a ∧ (implement_FA a b c).1 ≠ b ∧
    (implement_FA a b c).1 ≠ c ∧
    (implement_FA a b c).2 ≠ a ∧ (implement_FA a b c).2 ≠ b ∧
    (implement_FA a b c).2 ≠ c := by
  refine ⟨rfl, rfl, rfl, ?_, rfl, ?_, ?_, ?_, ?_, ?_, ?_, ?_, ?_, ?_, ?_⟩
  · show (((evalG env a && evalG env b) || (evalG env a && evalG env c)) ||
        (evalG env b && evalG env c)) = _
    cases ha : evalG env a <;> cases hb : evalG env b <;> cases hc : evalG env c <;> rfl
  all_goals intro heq
  all_goals have hg := congrArg gsize heq
  all_goals simp only [implement_HA, implement_FA, implement_AND, gsize] at hg
  all_goals omega

/-- C1 (refutation): the compressor tree does not conserve the input's
numeric value.  On `[[1,1],[]]` (two set pins at weight 0, an empty rank at
weight 1) the input decodes to 2, the reduction leaves the structure unchanged
(heights ≤ 2), and the finisher starts a width-2 adder at rank 0, feeds it
both pins at bit 0 (adder sum 1 + 1 = 2), but attaches the constant-zero pin
at the empty rank 1 instead of the adder's bit-1 output, so the returned
sequence `[addOut 0, zero, addOut 2]` decodes to 0 under the spec's ADD-node
semantics — the carry into bit 1 is lost.  Both strategies are affected. -/
theorem c1_value_lost :
    ranksVal [[true, true], []] = 2 ∧
    ranksToAdderChain [[true, true], []] =
      ⟨[OutPin.addOut 0, OutPin.zero, OutPin.addOut 2], some (0, 2),
       [(0, true)], [(0, true)]⟩ ∧
    adderSum (ranksToAdderChain [[true, true], []]) = 2 ∧
    decode (implement_compressor_tree_wallace [[true, true], []]) = 0 ∧
    (implement_compressor_tree_dadda [[true, true], []]).map decode = some 0 ∧
    (implement_compressor_tree compressor_tree_type_e.WALLACE [[true, true], []]).map
      decode = some 0 := by decide

/-- C3 (amended): in every Dadda stage, the carry-in used when deciding rank
`i+1` equals the number of adders applied to rank `i` when rank `i` entered
the reduction branch — but when rank `i` was passed through (skipped), the
carry-in keeps its previous, stale value: the skip path is a bare `continue`
that does not reset `last_carry_count` (refuted on skipped ranks by
`c3_counterexample`).  The first rank of a stage always sees carry-in 0. -/
theorem c3_dadda_carry_in (ranks res : List (List Bool)) (stages : List DStage)
    (hred : daddaReduce ranks = some (res, stages)) (st : DStage) (hst : st ∈ stages) :
    (∀ h0 : 0 < st.infos.length, (st.infos.get ⟨0, h0⟩).lcIn = 0) ∧
    (∀ i (hi : i + 1 < st.infos.length),
      (st.infos.get ⟨i + 1, hi⟩).lcIn =
        if (st.infos.get ⟨i, by omega⟩).skip = true
        then (st.infos.get ⟨i, by omega⟩).lcIn
        else (st.infos.get ⟨i, by omega⟩).fas + (st.infos.get ⟨i, by omega⟩).has) := by
  obtain ⟨res2, stages2, hred2, -, -, -, -, hstall, -, -⟩ := daddaReduce_spec ranks
  rw [hred] at hred2
  simp only [Option.some.injEq, Prod.mk.injEq] at hred2
  obtain ⟨-, h2⟩ := hred2
  subst h2
  obtain ⟨-, -, -, -, -, rks, out1, hstage, -, -⟩ := hstall st hst
  obtain ⟨-, hhead, hstep⟩ := daddaStageGo_lcIn rks st.d 0 [] false out1 st.infos hstage
  exact ⟨hhead, hstep⟩

/-- Witness for `c3_dadda_carry_in` at `[[1,1,1],[],[]]`: the single stage's
trace is `[⟨3,0,false,0,1⟩, ⟨0,1,true,0,0⟩, ⟨0,1,true,0,0⟩]`: rank 1 sees
the 1 adder of rank 0; rank 2 (after skipped rank 1) still sees the stale 1. -/
theorem c3_dadda_carry_in_witness :
    (∀ h0 : 0 < ([⟨3, 0, false, 0, 1⟩, ⟨0, 1, true, 0, 0⟩, ⟨0, 1, true, 0, 0⟩] :
        List DInfo).length,
      (([⟨3, 0, false, 0, 1⟩, ⟨0, 1, true, 0, 0⟩, ⟨0, 1, true, 0, 0⟩] :
        List DInfo).get ⟨0, h0⟩).lcIn = 0) ∧
    (∀ i (hi : i + 1 < ([⟨3, 0, false, 0, 1⟩, ⟨0, 1, true, 0, 0⟩, ⟨0, 1, true, 0, 0⟩] :
        List DInfo).length),
      (([⟨3, 0, false, 0, 1⟩, ⟨0, 1, true, 0, 0⟩, ⟨0, 1, true, 0, 0⟩] :
          List DInfo).get ⟨i + 1, hi⟩).lcIn =
        if (([⟨3, 0, false, 0, 1⟩, ⟨0, 1, true, 0, 0⟩, ⟨0, 1, true, 0, 0⟩] :
            List DInfo).get ⟨i, by omega⟩).skip = true
        then (([⟨3, 0, false, 0, 1⟩, ⟨0, 1, true, 0, 0⟩, ⟨0, 1, true, 0, 0⟩] :
            List DInfo).get ⟨i, by omega⟩).lcIn
        else (([⟨3, 0, false, 0, 1⟩, ⟨0, 1, true, 0, 0⟩, ⟨0, 1, true, 0, 0⟩] :
            List DInfo).get ⟨i, by omega⟩).fas +
          (([⟨3, 0, false, 0, 1⟩, ⟨0, 1, true, 0, 0⟩, ⟨0, 1, true, 0, 0⟩] :
            List DInfo).get ⟨i, by omega⟩).has) :=
  c3_dadda_carry_in [[true, true, true], [], []] [[false, true], [true], []]
    [⟨2, 3, [⟨3, 0, false, 0, 1⟩, ⟨0, 1, true, 0, 0⟩, ⟨0, 1, true, 0, 0⟩], 2⟩]
    (by decide)
    ⟨2, 3, [⟨3, 0, false, 0, 1⟩, ⟨0, 1, true, 0, 0⟩, ⟨0, 1, true, 0, 0⟩], 2⟩
    (by decide)

/-- C3 counterexample to the claim as stated: on `[[1,1,1],[],[]]` (Dadda,
threshold d = 2), rank 0 applies one half adder, rank 1 is passed through
(height 0 + carry 1 ≤ 2) applying zero adders — yet rank 2's carry-in is 1,
not rank 1's adder count 0: the skip path leaves `last_carry_count` stale. -/
theorem c3_counterexample :
    (daddaReduce [[true, true, true], [], []]).map
      (fun p => p.2.map (fun st => (st.infos.map DInfo.lcIn,
        st.infos.map DInfo.skip, st.infos.map (fun x => x.fas + x.has)))) =
      some [([0, 1, 1], [false, true, true], [1, 0, 0])] := by decide

/-- C4: the Dadda per-stage height thresholds are exactly values collected by
the `d = 2; while (d < m) { push d; d = d·3/2 }` loop (`dFactors`): the
collected list starts at 2, each next value is `⌊previous·3/2⌋`, all are below
the initial maximum height; the stages consume them from the largest backward
in strictly decreasing order (the first stage uses the last collected value),
and at the end of each stage no rank's height exceeds the stage's threshold. -/
theorem c4_dadda_schedule (ranks : List (List Bool)) :
    ∃ res stages, daddaReduce ranks = some (res, stages) ∧
      (∀ x t, dFactors (maxRankSize ranks) = x :: t → x = 2) ∧
      List.Chain' (fun x y => y = x * 3 / 2) (dFactors (maxRankSize ranks)) ∧
      (∀ x ∈ dFactors (maxRankSize ranks), x < maxRankSize ranks) ∧
      (dFactors (maxRankSize ranks) = [] → maxRankSize ranks ≤ 2) ∧
      (∀ st0, stages.head? = some st0 →
        (dFactors (maxRankSize ranks)).getLast? = some st0.d) ∧
      List.Chain' (fun a b => b < a) (stages.map DStage.d) ∧
      (∀ st ∈ stages, st.d ∈ dFactors (maxRankSize ranks) ∧
        ∃ rks out1, daddaStage st.d rks = some (out1, st.infos) ∧
          ∀ nr ∈ out1, nr.length ≤ st.d) := by
  obtain ⟨res, stages, hred, -, -, -, -, hstall, hhead, hch⟩ := daddaReduce_spec ranks
  refine ⟨res, stages, hred, fun x t h => dFactorsGo_head _ _ _ x t h,
    List.Chain'.imp (fun a b h => h) (dFactorsGo_chain _ _ 2),
    fun x hx => (dFactorsGo_mem _ _ 2 x hx).2, dFactors_eq_nil _,
    fun st0 h => (hhead st0 h).2, hch, ?_⟩
  intro st hst
  obtain ⟨-, hend, -, hmem, -, rks, out1, hstage, -, hout⟩ := hstall st hst
  refine ⟨hmem, rks, out1, hstage, ?_⟩
  intro nr hnr
  have := maxRankSize_le out1 hnr
  omega

/-- C7: both reduction loops terminate with every rank height at most 2 (the
Dadda loop moreover returns `some`, never aborting), each recorded stage
strictly decreases the maximum rank height, and the number of stages is
logarithmic: at most `2·log₂(initial max height) + 2` for both strategies. -/
theorem c7_termination (ranks : List (List Bool)) :
    (∀ st ∈ (wallaceReduce ranks).2, st.endMax < st.startMax) ∧
    maxRankSize (wallaceReduce ranks).1 ≤ 2 ∧
    (wallaceReduce ranks).2.length ≤ 2 * Nat.log 2 (maxRankSize ranks) + 2 ∧
    ∃ res stages, daddaReduce ranks = some (res, stages) ∧
      (∀ st ∈ stages, st.endMax < st.startMax) ∧
      maxRankSize res ≤ 2 ∧
      stages.length ≤ 2 * Nat.log 2 (maxRankSize ranks) + 2 := by
  obtain ⟨res, stages, hred, -, hres, hlen, -, hstall, -, -⟩ := daddaReduce_spec ranks
  refine ⟨?_, ?_, ?_, res, stages, hred, ?_, hres, ?_⟩
  · intro st hst
    exact (wallaceLoop_stages (maxRankSize ranks) ranks st hst).2.2.2
  · exact wallaceLoop_max_le (maxRankSize ranks) ranks (by omega)
  · calc (wallaceLoop (maxRankSize ranks) ranks).2.length
        ≤ wallaceBoundAux (maxRankSize ranks) (maxRankSize ranks) :=
          wallaceLoop_count _ _
    _ ≤ 2 * Nat.log 2 (maxRankSize ranks) + 2 := wallaceBoundAux_log _ _
  · intro st hst
    exact (hstall st hst).2.2.1
  · have := dFactors_length_le (maxRankSize ranks)
    omega

/-- C8 (amended): both reducers conserve the rank structure's numeric value,
so the two reduced structures always decode to the same number as the input
and as each other.  The original claim's two parts are both false
(`c8_counterexample`): Dadda can insert strictly more adders than Wallace,
and the final *outputs* can decode differently because the finisher mishandles
empty ranks inside the adder span. -/
theorem c8_value_equivalence (ranks : List (List Bool)) :
    ranksVal (wallaceReduce ranks).1 = ranksVal ranks ∧
    ∃ res stages, daddaReduce ranks = some (res, stages) ∧
      ranksVal res = ranksVal (wallaceReduce ranks).1 := by
  obtain ⟨res, stages, hred, hval, -, -, -, -, -, -⟩ := daddaReduce_spec ranks
  refine ⟨wallaceLoop_val _ _, res, stages, hred, ?_⟩
  rw [hval]
  exact (wallaceLoop_val _ _).symm

/-- C8 counterexample to the claim as stated: on `[[],[1,1,1,1]]` the Dadda
reducer inserts 2 adders where Wallace inserts 1 (Dadda's first stage, d = 3,
applies a half adder that Wallace's target 3 avoids); and on
`[[1,1],[],[1,1,1]]` (value 14) the Wallace output decodes to 14 but the
Dadda output to 12 — Dadda's reduction leaves rank 0 at height 2, so the
finisher spans the empty rank 1, where it loses the adder's carry. -/
theorem c8_counterexample :
    stagesAddersW (wallaceReduce [[], [true, true, true, true]]).2 = 1 ∧
    (daddaReduce [[], [true, true, true, true]]).map (fun p => stagesAddersD p.2) =
      some 2 ∧
    decode (implement_compressor_tree_wallace [[true, true], [], [true, true, true]]) =
      14 ∧
    (implement_compressor_tree_dadda [[true, true], [], [true, true, true]]).map decode =
      some 12 := by decide

/-- C9: the Dadda merge's unguarded read of `ranks[i]` is always in bounds:
the reduction never aborts (`daddaReduce` returns `some`, where `none` models
the out-of-bounds case of an empty trailing carry row), because a rank that
enters the reduction branch always applies at least one adder, so the
trailing carry row, when created, is never empty. -/
theorem c9_dadda_merge_safe (ranks : List (List Bool)) :
    daddaReduce ranks ≠ none ∧ implement_compressor_tree_dadda ranks ≠ none := by
  obtain ⟨res, stages, hred, -⟩ := daddaReduce_spec ranks
  constructor
  · rw [hred]
    exact Option.some_ne_none _
  · simp only [implement_compressor_tree_dadda, hred]
    simp

end Compressor
